import Mathlib

/-!
A shallow embedding of the Halide runtime `RegionAllocator`
(`src/runtime/internal/region_allocator.h`), the per-block sub-allocator that
tiles one contiguous memory block into a doubly-linked list of `BlockRegion`
nodes and implements `reserve` / `release` / `reclaim` / `retain` /
`collect` / `release` (all) over that list.

The linked list of `BlockRegion` nodes is modelled as a `List BlockRegion`
in list order (the order induced by `next_ptr`); the node address that the
C++ code hands out as an identity is modelled by the `rid` field.  The
backend handle written by the region-allocate callback is an `Option Nat`
(`none` models a null handle).  Every invocation of the region-deallocate
callback is recorded in `deallocLog` as the `(offset, size)` of the region
passed to it, so that theorems can speak about which regions were freed.
-/

namespace HalideRegion

/-- Modelled from the spec (the enum lives in `memory_resources.h`, which is
not part of the sources): a small enum with a `Default` sentinel. -/
inductive MemoryVisibility where
  | DefaultVisibility
  | HostOnly
  | DeviceOnly
  deriving DecidableEq, Repr

/-- Modelled from the spec (the enum lives in `memory_resources.h`, which is
not part of the sources): a small enum with a `Default` sentinel. -/
inductive MemoryCaching where
  | DefaultCaching
  | Cached
  | Uncached
  deriving DecidableEq, Repr

/-- Modelled from the spec (the enum lives in `memory_resources.h`, which is
not part of the sources): a small enum with a `Default` sentinel. -/
inductive MemoryUsage where
  | DefaultUsage
  | StaticStorage
  | DynamicStorage
  deriving DecidableEq, Repr

/-- Region/block allocation status (`AllocationStatus` in the sources). -/
inductive AllocationStatus where
  | Available
  | InUse
  | Dedicated
  | Purgeable
  deriving DecidableEq, Repr

/-- `MemoryProperties`: the visibility/caching/usage triple plus the required
alignment (the code reads `block->memory.properties.alignment`). -/
structure MemoryProperties where
  visibility : MemoryVisibility
  caching : MemoryCaching
  usage : MemoryUsage
  alignment : Nat
  deriving DecidableEq, Repr

/-- `MemoryRequest`: size, requested alignment, requested properties and the
dedicated flag. -/
structure MemoryRequest where
  size : Nat
  alignment : Nat
  properties : MemoryProperties
  dedicated : Bool
  deriving DecidableEq, Repr

/-- One node of the block's region list (`BlockRegion` together with its
embedded `MemoryRegion`).  `rid` models the node's address (its identity as
seen by a caller holding the returned `MemoryRegion*`). -/
structure BlockRegion where
  rid : Nat
  handle : Option Nat
  offset : Nat
  size : Nat
  properties : MemoryProperties
  dedicated : Bool
  is_owner : Bool
  status : AllocationStatus
  usage_count : Nat
  deriving DecidableEq, Repr

/-- The state of one `RegionAllocator` and its `BlockResource`:
the block size and required alignment, the `reserved` byte count, the region
list in `next_ptr` order, a fresh-node counter, and the log of all
region-deallocate callback invocations (offset and size of each freed
region). -/
structure AllocState where
  blockSize : Nat
  blockAlign : Nat
  reserved : Nat
  regions : List BlockRegion
  nextId : Nat
  deallocLog : List (Nat × Nat)
  deriving DecidableEq, Repr

/-- Modelled from the spec (`memory_resources.h` is not in the sources):
`round_up(o, a) = ((o + a - 1) / a) * a`. -/
def round_up (value divisor : Nat) : Nat :=
  ((value + divisor - 1) / divisor) * divisor

/-- Modelled from the spec: `aligned_offset(o, a)` rounds `o` up to `a`. -/
def aligned_offset (offset alignment : Nat) : Nat :=
  round_up offset alignment

/-- Modelled from the spec:
`aligned_size(o, s, a) = aligned_offset(o + s, a) - o`. -/
def aligned_size (offset size alignment : Nat) : Nat :=
  aligned_offset (offset + size) alignment - offset

/-- Doubling loop for `next_pow2` (structural recursion on a fuel
parameter so that it reduces definitionally). -/
def next_pow2_go : Nat → Nat → Nat
  | 0, _ => 1
  | fuel + 1, n => if n ≤ 1 then 1 else 2 * next_pow2_go fuel ((n + 1) / 2)

/-- Smallest power of two that is at least `n` (and at least `1`). -/
def next_pow2 (n : Nat) : Nat := next_pow2_go n n

/-- Modelled from the spec (`memory_resources.h` is not in the sources):
`conform_alignment(requested, required) = max(requested, required)` rounded
up to a power of two. -/
def conform_alignment (requested required : Nat) : Nat :=
  next_pow2 (max requested required)

/-- `RegionAllocator::is_available`: unused and available. -/
def is_available (r : BlockRegion) : Bool :=
  r.usage_count == 0 && r.status == AllocationStatus.Available

/-- `is_available` lifted to an optional neighbour (a null pointer is not
available). -/
def availOpt : Option BlockRegion → Bool
  | none => false
  | some r => is_available r

/-- `RegionAllocator::is_compatible_block_region`: each requested axis is
`Default` or equals the region's value. -/
def is_compatible_block_region (r : BlockRegion) (p : MemoryProperties) : Bool :=
  (p.caching == MemoryCaching.DefaultCaching || p.caching == r.properties.caching)
    && (p.visibility == MemoryVisibility.DefaultVisibility
        || p.visibility == r.properties.visibility)
    && (p.usage == MemoryUsage.DefaultUsage || p.usage == r.properties.usage)

/-- The acceptance test of the scan loop in
`RegionAllocator::find_block_region`: available, compatible, large enough for
the requested size, large enough for the alignment-adjusted size, and the
adjusted size fits in the block's unreserved space. -/
def region_fits (st : AllocState) (req : MemoryRequest) (r : BlockRegion) : Bool :=
  is_available r && is_compatible_block_region r req.properties
    && Nat.ble req.size r.size
    && (let asz := aligned_size r.offset req.size
          (conform_alignment req.alignment st.blockAlign)
        Nat.ble asz r.size && Nat.ble (asz + st.reserved) st.blockSize)

/-- `RegionAllocator::find_block_region`: the first region in list order that
passes `region_fits`. -/
def find_block_region (st : AllocState) (req : MemoryRequest) : Option BlockRegion :=
  st.regions.find? (region_fits st req)

/-- `RegionAllocator::can_split`: strictly larger than the request and
unreferenced. -/
def can_split (r : BlockRegion) (size : Nat) : Bool :=
  size < r.size && r.usage_count == 0

/-- `RegionAllocator::alloc_block_region` on one node (the `reserved` update
is applied by the caller): invoke the allocate callback only when the handle
is null (`allocRes` is the handle the callback writes; `none` models a failed
callback that writes nothing), then mark the region in use.  The callback's
status is not inspected, exactly as in the source. -/
def alloc_block_region (allocRes : Option Nat) (r : BlockRegion) : BlockRegion :=
  let r1 := if r.handle == none then { r with handle := allocRes, is_owner := true } else r
  { r1 with status := if r1.dedicated then AllocationStatus.Dedicated
                      else AllocationStatus.InUse }

/-- The body of `RegionAllocator::reserve` applied to the selected region:
`split_block_region` (which first deallocates an attached handle, then
shrinks the region and inserts the trailing empty region) when `can_split`,
then `alloc_block_region`, then `usage_count = 1`.  Returns the replacement
nodes, the selected node and the updated dealloc log. -/
def place_region (blockAlign : Nat) (req : MemoryRequest) (allocRes : Option Nat)
    (freshId : Nat) (log : List (Nat × Nat)) (r : BlockRegion) :
    List BlockRegion × BlockRegion × List (Nat × Nat) :=
  if can_split r req.size then
    let logr := if r.usage_count == 0 && !(r.handle == none)
                then (log ++ [(r.offset, r.size)], { r with handle := none })
                else (log, r)
    let r1 := logr.2
    let a := conform_alignment req.alignment blockAlign
    let adjusted_size := aligned_size r1.offset req.size a
    let adjusted_offset := aligned_offset (r1.offset + req.size) a
    let empty_size := r1.size - adjusted_size
    let empty : BlockRegion :=
      { rid := freshId, handle := none, offset := adjusted_offset, size := empty_size,
        properties := r1.properties, dedicated := r1.dedicated, is_owner := false,
        status := AllocationStatus.Available, usage_count := 0 }
    let sel := { alloc_block_region allocRes { r1 with size := req.size } with usage_count := 1 }
    ([sel, empty], sel, logr.1)
  else
    let sel := { alloc_block_region allocRes r with usage_count := 1 }
    ([sel], sel, log)

/-- Replace the first region satisfying `p` by the nodes `f` produces,
returning the new list, the selected node and the updated log. -/
def replace_first (p : BlockRegion → Bool)
    (f : List (Nat × Nat) → BlockRegion → List BlockRegion × BlockRegion × List (Nat × Nat))
    (log : List (Nat × Nat)) :
    List BlockRegion → Option (List BlockRegion × BlockRegion × List (Nat × Nat))
  | [] => none
  | r :: rs =>
    if p r then
      let res := f log r
      some (res.1 ++ rs, res.2.1, res.2.2)
    else
      match replace_first p f log rs with
      | none => none
      | some (l, sel, log') => some (r :: l, sel, log')

/-- `RegionAllocator::reserve`: fail fast when the unreserved space is too
small, otherwise find the first fitting region, split if possible, attach
backend memory and mark it in use.  Returns the `rid` of the placed region
(`none` models a null return). -/
def reserve (st : AllocState) (req : MemoryRequest) (allocRes : Option Nat) :
    Option Nat × AllocState :=
  if st.blockSize - st.reserved < req.size then (none, st)
  else
    match replace_first (region_fits st req)
        (fun log r => place_region st.blockAlign req allocRes st.nextId log r)
        st.deallocLog st.regions with
    | none => (none, st)
    | some (regions', sel, log') =>
      (some sel.rid,
       { st with regions := regions', reserved := st.reserved + sel.size,
                 nextId := st.nextId + 1, deallocLog := log' })

/-- `RegionAllocator::release_block_region` on one node, threading
`block->reserved`: a node still in use is returned unchanged; otherwise the
node's size is removed from `reserved` unless it is already `Available`, and
its status becomes `Available`. -/
def release_block_region (reserved : Nat) (r : BlockRegion) : Nat × BlockRegion :=
  if 0 < r.usage_count then (reserved, r)
  else
    ((if r.status == AllocationStatus.Available then reserved else reserved - r.size),
     { r with status := AllocationStatus.Available })

/-- `RegionAllocator::free_block_region` on one node, threading the dealloc
log: when the node is unreferenced and holds a handle, the deallocate
callback is invoked and the node's size, offset and handle are cleared; the
usage count and status are then unconditionally reset. -/
def free_block_region (log : List (Nat × Nat)) (r : BlockRegion) :
    List (Nat × Nat) × BlockRegion :=
  let fr := if r.usage_count == 0 && !(r.handle == none)
            then (log ++ [(r.offset, r.size)], { r with size := 0, offset := 0, handle := none })
            else (log, r)
  (fr.1, { fr.2 with usage_count := 0, status := AllocationStatus.Available })

/-- `RegionAllocator::can_coalesce` for a node with the given neighbours. -/
def can_coalesce (prev : Option BlockRegion) (r : BlockRegion)
    (next : Option BlockRegion) : Bool :=
  is_available r && (availOpt prev || availOpt next)

/-- Locate the node with identity `rid`: returns the reversed list of nodes
before it, the node, and the nodes after it. -/
def split_go (rid : Nat) (acc : List BlockRegion) :
    List BlockRegion → Option (List BlockRegion × BlockRegion × List BlockRegion)
  | [] => none
  | r :: rs => if r.rid == rid then some (acc, r, rs) else split_go rid (r :: acc) rs

/-- `RegionAllocator::coalesce_block_regions` at a node `r` whose reversed
prefix starts with `prev` and whose suffix is `rest`: free `r`'s handle if it
is unreferenced and attached (handle cleared, size kept), merge `r` into an
available predecessor, then merge an available successor into the merged node
(deallocating the successor's handle when it holds one, as
`destroy_block_region` does).  Returns the log, whether the predecessor was
consumed, the merged node and the remaining suffix. -/
def coalesce_core (log : List (Nat × Nat)) (prev : Option BlockRegion)
    (r : BlockRegion) (rest : List BlockRegion) :
    List (Nat × Nat) × Bool × BlockRegion × List BlockRegion :=
  let fr := if r.usage_count == 0 && !(r.handle == none)
            then (log ++ [(r.offset, r.size)], { r with handle := none })
            else (log, r)
  let log1 := fr.1
  let r1 := fr.2
  let pm : Bool × BlockRegion :=
    match prev with
    | some p => if is_available p then (true, { p with size := p.size + r1.size }) else (false, r1)
    | none => (false, r1)
  match rest with
  | [] => (log1, pm.1, pm.2, [])
  | n :: rs =>
    if is_available n then
      let log2 := if !(n.handle == none) then log1 ++ [(n.offset, n.size)] else log1
      (log2, pm.1, { pm.2 with size := pm.2.size + n.size }, rs)
    else
      (log1, pm.1, pm.2, n :: rs)

/-- `RegionAllocator::release` (with a region argument): decrement the usage
count when positive, then `release_block_region`. -/
def release (st : AllocState) (rid : Nat) : AllocState :=
  match split_go rid [] st.regions with
  | none => st
  | some (b, r, a) =>
    let r1 := if 0 < r.usage_count then { r with usage_count := r.usage_count - 1 } else r
    let rr := release_block_region st.reserved r1
    { st with reserved := rr.1, regions := b.reverse ++ rr.2 :: a }

/-- `RegionAllocator::reclaim`: decrement the usage count when positive, then
`release_block_region`, then `free_block_region`, then coalesce when
`can_coalesce` holds. -/
def reclaim (st : AllocState) (rid : Nat) : AllocState :=
  match split_go rid [] st.regions with
  | none => st
  | some (b, r, a) =>
    let r1 := if 0 < r.usage_count then { r with usage_count := r.usage_count - 1 } else r
    let rr := release_block_region st.reserved r1
    let fr := free_block_region st.deallocLog rr.2
    if can_coalesce b.head? fr.2 a.head? then
      let cc := coalesce_core fr.1 b.head? fr.2 a
      let b' := if cc.2.1 then b.tail else b
      { st with reserved := rr.1, deallocLog := cc.1,
                regions := b'.reverse ++ cc.2.2.1 :: cc.2.2.2 }
    else
      { st with reserved := rr.1, deallocLog := fr.1, regions := b.reverse ++ fr.2 :: a }

/-- `RegionAllocator::retain`: increment the usage count. -/
def retain (st : AllocState) (rid : Nat) : AllocState :=
  match split_go rid [] st.regions with
  | none => st
  | some (b, r, a) =>
    { st with regions := b.reverse ++ { r with usage_count := r.usage_count + 1 } :: a }

/-- The loop of the no-argument `RegionAllocator::release`: apply
`release_block_region` to every node in list order, threading `reserved`. -/
def release_all_go (reserved : Nat) : List BlockRegion → Nat × List BlockRegion
  | [] => (reserved, [])
  | r :: rs =>
    let rr := release_block_region reserved r
    let rest := release_all_go rr.1 rs
    (rest.1, rr.2 :: rest.2)

/-- The no-argument `RegionAllocator::release` (release all). -/
def release_all (st : AllocState) : AllocState :=
  let ra := release_all_go st.reserved st.regions
  { st with reserved := ra.1, regions := ra.2 }

/-- The loop of `RegionAllocator::collect`: walk the list; whenever
`can_coalesce` holds at the current node, coalesce (the walk continues after
the merged node).  `cur` is the most recently settled node (the merge target
for a predecessor merge), not yet emitted.  The first argument is fuel that
makes the recursion structural; every iteration consumes at least one list
node, so `collect` passes the list length and the out-of-fuel branch is
never reached (`collect_go_main` is stated for any sufficient fuel). -/
def collect_go : Nat → List (Nat × Nat) → Option BlockRegion →
    List BlockRegion → List (Nat × Nat) × List BlockRegion × Bool
  | _, log, cur, [] => (log, cur.toList, false)
  | 0, log, cur, rest => (log, cur.toList ++ rest, false)
  | fuel + 1, log, cur, r :: rs =>
    if can_coalesce cur r rs.head? then
      let fr := if r.usage_count == 0 && !(r.handle == none)
                then (log ++ [(r.offset, r.size)], { r with handle := none })
                else (log, r)
      let pm : Bool × BlockRegion :=
        match cur with
        | some p => if is_available p then (true, { p with size := p.size + fr.2.size })
                    else (false, fr.2)
        | none => (false, fr.2)
      let emitted : List BlockRegion := if pm.1 then [] else cur.toList
      match rs with
      | [] => (fr.1, emitted ++ [pm.2], true)
      | n :: rs' =>
        if is_available n then
          let log2 := if !(n.handle == none) then fr.1 ++ [(n.offset, n.size)] else fr.1
          let rec1 := collect_go fuel log2 (some { pm.2 with size := pm.2.size + n.size }) rs'
          (rec1.1, emitted ++ rec1.2.1, true)
        else
          let rec1 := collect_go fuel fr.1 (some pm.2) (n :: rs')
          (rec1.1, emitted ++ rec1.2.1, true)
    else
      let rec1 := collect_go fuel log (some r) rs
      (rec1.1, cur.toList ++ rec1.2.1, rec1.2.2)

/-- `RegionAllocator::collect`: returns the new state and the flag that is
true when at least one coalesce was performed. -/
def collect (st : AllocState) : AllocState × Bool :=
  let c := collect_go st.regions.length st.deallocLog none st.regions
  ({ st with regions := c.2.1, deallocLog := c.1 }, c.2.2)

/-- The state `RegionAllocator::initialize` builds: one `Available` region
covering `[0, blockSize)` with the block's properties. -/
def mkBlock (blockSize blockAlign : Nat) : AllocState :=
  { blockSize := blockSize, blockAlign := blockAlign, reserved := 0,
    regions := [{ rid := 0, handle := none, offset := 0, size := blockSize,
                  properties := { visibility := MemoryVisibility.DefaultVisibility,
                                  caching := MemoryCaching.DefaultCaching,
                                  usage := MemoryUsage.DefaultUsage,
                                  alignment := blockAlign },
                  dedicated := false, is_owner := false,
                  status := AllocationStatus.Available, usage_count := 0 }],
    nextId := 1, deallocLog := [] }

/-- True when the status keeps bytes accounted in `block->reserved`. -/
def statusReserves : AllocationStatus → Bool
  | AllocationStatus.InUse => true
  | AllocationStatus.Dedicated => true
  | _ => false

/-- The contribution of one region to the `InUse`/`Dedicated` size total. -/
def contribution (r : BlockRegion) : Nat :=
  if statusReserves r.status then r.size else 0

/-- Sum of `region.size` over regions with status `InUse` or `Dedicated`. -/
def inUseSum (l : List BlockRegion) : Nat :=
  (l.map contribution).sum

/-- No region has status `Purgeable` (no operation ever produces it). -/
def noPurge (l : List BlockRegion) : Bool :=
  l.all (fun r => !(r.status == AllocationStatus.Purgeable))

/-- `tiles off l stop` holds when the regions of `l`, in list order, cover
exactly `[off, stop)` contiguously: each region starts where the previous one
ended and the last one ends at `stop`. -/
def tiles (off : Nat) : List BlockRegion → Nat → Bool
  | [], stop => off == stop
  | r :: rs, stop => (r.offset == off) && tiles (off + r.size) rs stop

/-- No two adjacent regions in the list are both available
(status `Available` with zero usage count). -/
def noAdjAvail : List BlockRegion → Bool
  | a :: b :: t => (!(is_available a && is_available b)) && noAdjAvail (b :: t)
  | _ => true

/-- The default (all-`Default`) request properties. -/
def defaultProps : MemoryProperties :=
  { visibility := MemoryVisibility.DefaultVisibility,
    caching := MemoryCaching.DefaultCaching,
    usage := MemoryUsage.DefaultUsage, alignment := 1 }

/-- A 4-byte request with alignment 1 and default properties. -/
def reqSize4 : MemoryRequest :=
  { size := 4, alignment := 1, properties := defaultProps, dedicated := false }

/-- A 4-byte request with alignment 8 and default properties. -/
def reqSize4Align8 : MemoryRequest := { reqSize4 with alignment := 8 }

/-! ## Locating a node by identity -/

theorem split_go_some {rid : Nat} :
    ∀ {l acc b : List BlockRegion} {r : BlockRegion} {a : List BlockRegion},
      split_go rid acc l = some (b, r, a) →
      ∃ pre, l = pre ++ r :: a ∧ b = pre.reverse ++ acc ∧ r.rid = rid
        ∧ ∀ y ∈ pre, ¬(y.rid = rid) := by
  intro l
  induction l with
  | nil => intro acc b r a h; simp [split_go] at h
  | cons x xs ih =>
    intro acc b r a h
    by_cases hx : x.rid = rid
    · simp [split_go, hx] at h
      obtain ⟨hb, hr, ha⟩ := h
      exact ⟨[], by simp [hr, ha], by simp [hb], by simp [← hr, hx], by simp⟩
    · have hx' : (x.rid == rid) = false := by simp [hx]
      simp only [split_go, hx', Bool.false_eq_true, if_false] at h
      obtain ⟨pre, hl, hb, hr, hpre⟩ := ih h
      refine ⟨x :: pre, by simp [hl], ?_, hr, ?_⟩
      · simp [hb, List.reverse_cons, List.append_assoc]
      · intro y hy
        rcases List.mem_cons.mp hy with h1 | h1
        · simpa [h1] using hx
        · exact hpre y h1

theorem split_go_reconstruct (rid : Nat) :
    ∀ (pre : List BlockRegion) (acc : List BlockRegion) (r : BlockRegion)
      (a : List BlockRegion), r.rid = rid → (∀ y ∈ pre, ¬(y.rid = rid)) →
      split_go rid acc (pre ++ r :: a) = some (pre.reverse ++ acc, r, a) := by
  intro pre
  induction pre with
  | nil => intro acc r a hr _; simp [split_go, hr]
  | cons x xs ih =>
    intro acc r a hr hpre
    have hx : ¬(x.rid = rid) := hpre x (by simp)
    have hx' : (x.rid == rid) = false := by simp [hx]
    simp only [List.cons_append, split_go, hx', Bool.false_eq_true, if_false, List.append_eq]
    rw [ih (x :: acc) r a hr (fun y hy => hpre y (by simp [hy]))]
    simp [List.reverse_cons, List.append_assoc]

/-! ## Claim theorems -/

/-- C1: the claim states that after any sequence of
reserve/release/reclaim/retain calls the region list covers exactly
`[0, block.size)` with no gaps.  The code violates it: on a 16-byte block,
one successful `reserve` of 4 bytes followed by `reclaim` of the returned
region leaves a single region of size 12 — `free_block_region` zeroes the
reclaimed region's size and offset before the coalesce, so the 4 freed bytes
vanish from the list for good.  (Before the reclaim the list still tiles
`[0, 16)`.) -/
theorem c1_reclaim_loses_coverage :
    (reserve (mkBlock 16 1) reqSize4 (some 1)).1 = some 0
      ∧ tiles 0 (reserve (mkBlock 16 1) reqSize4 (some 1)).2.regions 16 = true
      ∧ tiles 0 (reclaim (reserve (mkBlock 16 1) reqSize4 (some 1)).2 0).regions 16 = false
      ∧ (reclaim (reserve (mkBlock 16 1) reqSize4 (some 1)).2 0).regions.map
          (fun r => (r.offset, r.size)) = [(0, 12)]
      ∧ (reclaim (reserve (mkBlock 16 1) reqSize4 (some 1)).2 0).blockSize = 16 := by
  decide

/-- C2 (counterexample): the claim states that between any two public
operations `block.reserved` equals the sum of region sizes over `InUse` and
`Dedicated` regions.  Reserving 4 bytes on a 16-byte block, retaining the
returned region once and then reclaiming it once leaves
`block.reserved = 4` while no region is `InUse` or `Dedicated`
(`reclaim` on a region with `usage_count ≥ 2` resets its status to
`Available` without touching `reserved`). -/
theorem c2_counterexample :
    (reclaim (retain (reserve (mkBlock 16 1) reqSize4 (some 1)).2 0) 0).reserved = 4
      ∧ inUseSum (reclaim (retain (reserve (mkBlock 16 1) reqSize4 (some 1)).2 0) 0).regions
          = 0 := by
  decide

/-- C3 (counterexample): the claim states that every region returned by
`reserve(req)` has an offset that is a multiple of
`conform_alignment(req.alignment, block.alignment)`.  On a 16-byte block with
alignment 1, reserve 4 bytes (alignment 1), then reserve 4 bytes with
alignment 8: the second call returns the region with `rid = 1` at offset 4,
and `4 % conform_alignment 8 1 = 4 ≠ 0` — the conformed alignment is only
used to pad the effective size, never to align the selected offset. -/
theorem c3_counterexample :
    (reserve (reserve (mkBlock 16 1) reqSize4 (some 1)).2 reqSize4Align8 (some 2)).1 = some 1
      ∧ (reserve (reserve (mkBlock 16 1) reqSize4 (some 1)).2 reqSize4Align8 (some 2)).2.regions.map
          (fun r => (r.rid, r.offset)) = [(0, 0), (1, 4), (2, 8)]
      ∧ conform_alignment reqSize4Align8.alignment (mkBlock 16 1).blockAlign = 8
      ∧ ¬(4 % conform_alignment reqSize4Align8.alignment (mkBlock 16 1).blockAlign = 0) := by
  decide

/-- C4: the claim states that whenever the region-allocate callback fails
during `reserve`, `reserve` returns null and leaves no partial state.  The
code never inspects the callback's status: with a callback that fails
(writes no handle, modelled by `allocRes = none`), `reserve` on a fresh
16-byte block still returns the region (`some 0`), marks it `InUse` with a
null handle and `usage_count = 1`, and adds its size to `block.reserved` —
a partial state the claim forbids. -/
theorem c4_callback_failure_ignored :
    (reserve (mkBlock 16 1) reqSize4 none).1 = some 0
      ∧ (reserve (mkBlock 16 1) reqSize4 none).2.regions.map
          (fun r => (r.rid, r.handle, r.status, r.usage_count))
        = [(0, none, AllocationStatus.InUse, 1), (1, none, AllocationStatus.Available, 0)]
      ∧ (reserve (mkBlock 16 1) reqSize4 none).2.reserved = 4 := by
  decide

/-- C5 (counterexample): the claim states that after any interleaving of `N`
retains and `M` releases the region remains `InUse` iff `1 + N - M > 0`.
Take `N = M = 1` in the order release-then-retain on a region freshly
reserved on a 16-byte block: the net count `1 + 1 - 1 = 1` is positive, yet
the region's status is `Available` (with `usage_count = 1`) — once `release`
drops the count to 0 the status flips to `Available` and a later `retain`
raises only the count, never the status. -/
theorem c5_counterexample :
    0 < 1 + 1 - 1
      ∧ (retain (release (reserve (mkBlock 16 1) reqSize4 (some 1)).2 0) 0).regions.map
          (fun r => (r.rid, r.status, r.usage_count))
        = [(0, AllocationStatus.Available, 1), (1, AllocationStatus.Available, 0)] := by
  decide

/-- C7 (counterexample): the claim states that after the no-argument
`release` (release all) every region is `Available` and `block.reserved = 0`.
On a 16-byte block holding one freshly reserved 4-byte region
(`usage_count = 1`), `release_all` leaves that region `InUse` and
`block.reserved = 4`: `release_block_region` returns early for any region
with a positive usage count, and it never decrements the count. -/
theorem c7_counterexample :
    (release_all (reserve (mkBlock 16 1) reqSize4 (some 1)).2).regions.map
        (fun r => (r.rid, r.status))
      = [(0, AllocationStatus.InUse), (1, AllocationStatus.Available)]
      ∧ (release_all (reserve (mkBlock 16 1) reqSize4 (some 1)).2).reserved = 4 := by
  decide

/-- C9 (counterexample): the claim states that after `reclaim` frees a
region's backend memory, the caller-held region has handle null and both
size and offset 0.  On a 16-byte block, reserve 4 bytes and reclaim the
returned region: `free_block_region` does zero its size and offset, but the
coalesce that follows merges the available 12-byte successor into it, so
after `reclaim` the caller-held region reports size 12, not 0. -/
theorem c9_counterexample :
    (reclaim (reserve (mkBlock 16 1) reqSize4 (some 1)).2 0).regions.map
        (fun r => (r.rid, r.handle, r.offset, r.size))
      = [(0, none, 0, 12)]
      ∧ ¬((12 : Nat) = 0) := by
  decide

/-- C10 (counterexample): the claim states that a single `reclaim` on a
region with `usage_count ≥ 2` does not invoke the region-deallocate callback
on it.  On a 16-byte block, reserve 4 bytes and retain once
(`usage_count = 2`), then reclaim once: `free_block_region` indeed skips the
deallocation, but it resets the region to `Available`, which makes
`can_coalesce` true (the 12-byte successor is available), and
`coalesce_block_regions` then deallocates the region's still-attached handle
— the dealloc log records the callback invocation on `(offset 0, size 4)`. -/
theorem c10_counterexample :
    ((retain (reserve (mkBlock 16 1) reqSize4 (some 1)).2 0).regions.map
        (fun r => (r.rid, r.usage_count))).take 1 = [(0, 2)]
      ∧ (reclaim (retain (reserve (mkBlock 16 1) reqSize4 (some 1)).2 0) 0).deallocLog
        = [(0, 4)] := by
  decide

/-- C10 (amended): a single `reclaim` on a region with `usage_count ≥ 2`
whose list neighbours are not available sets its `usage_count` to 0 and its
status to `Available`, does not invoke the region-deallocate callback on it
(its handle, size and offset are untouched), and does not subtract its size
from `block.reserved`. -/
theorem c10_amended (st : AllocState) (rid : Nat) (b : List BlockRegion)
    (r : BlockRegion) (a : List BlockRegion)
    (hsplit : split_go rid [] st.regions = some (b, r, a))
    (hu : 2 ≤ r.usage_count)
    (hp : availOpt b.head? = false) (hn : availOpt a.head? = false) :
    ∃ r', split_go rid [] (reclaim st rid).regions = some (b, r', a)
      ∧ r'.usage_count = 0 ∧ r'.status = AllocationStatus.Available
      ∧ r'.handle = r.handle ∧ r'.size = r.size ∧ r'.offset = r.offset
      ∧ (reclaim st rid).deallocLog = st.deallocLog
      ∧ (reclaim st rid).reserved = st.reserved := by
  obtain ⟨pre, hl, hb, hrid, hpre⟩ := split_go_some hsplit
  have hb' : b = pre.reverse := by simpa using hb
  have h1 : 0 < r.usage_count := by omega
  have h2 : 0 < r.usage_count - 1 := by omega
  have h3 : ((r.usage_count - 1) == 0) = false := by
    simp only [beq_eq_false_iff_ne, ne_eq]; omega
  have hrec : reclaim st rid
      = { st with regions := b.reverse ++ ({ r with usage_count := 0, status := AllocationStatus.Available } : BlockRegion) :: a } := by
    simp [reclaim, hsplit, release_block_region, free_block_region,
          can_coalesce, is_available, h1, h2, h3, hp, hn]
  refine ⟨{ r with usage_count := 0, status := AllocationStatus.Available },
    ?_, by simp, by simp, by simp, by simp, by simp, by simp [hrec], by simp [hrec]⟩
  rw [hrec]
  simp only [hb', List.reverse_reverse]
  have := split_go_reconstruct rid pre []
    { r with usage_count := 0, status := AllocationStatus.Available } a (by simpa using hrid) hpre
  simpa [hb'] using this

/-- Region `[0, 8)` of `stTwoInUse`: `InUse` with usage count 2. -/
def regTwoA : BlockRegion :=
  { rid := 0, handle := some 1, offset := 0, size := 8,
    properties := defaultProps, dedicated := false, is_owner := true,
    status := AllocationStatus.InUse, usage_count := 2 }

/-- Region `[8, 16)` of `stTwoInUse`: `InUse` with usage count 1. -/
def regTwoB : BlockRegion :=
  { rid := 1, handle := some 2, offset := 8, size := 8,
    properties := defaultProps, dedicated := false, is_owner := true,
    status := AllocationStatus.InUse, usage_count := 1 }

/-- A two-region state used to instantiate theorems with hypotheses: a
16-byte block whose regions `[0, 8)` and `[8, 16)` are both `InUse`, the
first with usage count 2 and the second with usage count 1. -/
def stTwoInUse : AllocState :=
  { blockSize := 16, blockAlign := 1, reserved := 16,
    regions := [regTwoA, regTwoB], nextId := 2, deallocLog := [] }

/-- Witness for `c10_amended` at the concrete state `stTwoInUse`. -/
theorem c10_amended_witness :
    (split_go 0 [] stTwoInUse.regions = some ([], regTwoA, [regTwoB])
      ∧ 2 ≤ regTwoA.usage_count
      ∧ availOpt ([] : List BlockRegion).head? = false
      ∧ availOpt [regTwoB].head? = false)
    ∧ (∃ r', split_go 0 [] (reclaim stTwoInUse 0).regions = some ([], r', [regTwoB])
        ∧ r'.usage_count = 0 ∧ r'.status = AllocationStatus.Available
        ∧ r'.handle = regTwoA.handle ∧ r'.size = regTwoA.size ∧ r'.offset = regTwoA.offset
        ∧ (reclaim stTwoInUse 0).deallocLog = stTwoInUse.deallocLog
        ∧ (reclaim stTwoInUse 0).reserved = stTwoInUse.reserved) :=
  ⟨⟨by decide, by decide, by decide, by decide⟩,
   c10_amended stTwoInUse 0 [] regTwoA [regTwoB]
     (by decide) (by decide) (by decide) (by decide)⟩

theorem coalesce_core_log (L : List (Nat × Nat)) (prev : Option BlockRegion)
    (r : BlockRegion) (rest : List BlockRegion) (hrh : r.handle = none) :
    ∃ t, (coalesce_core L prev r rest).1 = L ++ t := by
  rcases rest with _ | ⟨n, rs⟩
  · exact ⟨[], by simp [coalesce_core, hrh]⟩
  · simp only [coalesce_core, hrh]
    split_ifs <;> simp

theorem coalesce_core_center (L : List (Nat × Nat)) (prev : Option BlockRegion)
    (r : BlockRegion) (rest : List BlockRegion) (hrh : r.handle = none) :
    (∃ p, prev = some p ∧ (coalesce_core L prev r rest).2.1 = true
        ∧ (coalesce_core L prev r rest).2.2.1.rid = p.rid)
      ∨ ((coalesce_core L prev r rest).2.1 = false
          ∧ (coalesce_core L prev r rest).2.2.1.rid = r.rid
          ∧ (coalesce_core L prev r rest).2.2.1.handle = r.handle
          ∧ (coalesce_core L prev r rest).2.2.1.offset = r.offset) := by
  rcases prev with _ | p
  · rcases rest with _ | ⟨n, rs⟩
    · right; simp [coalesce_core, hrh]
    · right; simp only [coalesce_core, hrh]; split_ifs <;> simp_all
  · by_cases hav : is_available p = true
    · left
      refine ⟨p, rfl, ?_, ?_⟩ <;>
        · rcases rest with _ | ⟨n, rs⟩
          · simp [coalesce_core, hrh, hav]
          · simp only [coalesce_core, hrh]; split_ifs <;> simp_all
    · right
      rcases rest with _ | ⟨n, rs⟩
      · simp [coalesce_core, hrh, hav]
      · simp only [coalesce_core, hrh]; split_ifs <;> simp_all

theorem coalesce_core_mem_rest (L : List (Nat × Nat)) (prev : Option BlockRegion)
    (r : BlockRegion) (rest : List BlockRegion) :
    ∀ y ∈ (coalesce_core L prev r rest).2.2.2, y ∈ rest := by
  rcases rest with _ | ⟨n, rs⟩
  · simp [coalesce_core]
  · simp only [coalesce_core]
    split_ifs <;> intro y hy <;> simp_all

/-- C9 (amended): when `reclaim` is applied to a region `R` whose usage
count reaches 0 and whose handle is attached, the region-deallocate callback
is invoked on `R` (the first new dealloc-log entry carries `R`'s offset and
size), and after the reclaim every surviving list entry with `R`'s identity
has a null handle and offset 0 (its size may have been grown again by the
coalesce that merges an available successor into it). -/
theorem c9_amended (st : AllocState) (rid h : Nat) (b : List BlockRegion)
    (r : BlockRegion) (a : List BlockRegion)
    (hsplit : split_go rid [] st.regions = some (b, r, a))
    (hu : r.usage_count ≤ 1)
    (hh : r.handle = some h)
    (ha : ∀ y ∈ a, ¬(y.rid = rid)) :
    (∃ rest, (reclaim st rid).deallocLog = st.deallocLog ++ (r.offset, r.size) :: rest)
      ∧ ∀ r' ∈ (reclaim st rid).regions, r'.rid = rid →
          r'.handle = none ∧ r'.offset = 0 := by
  obtain ⟨pre, hl, hb, hrid, hpre⟩ := split_go_some hsplit
  have hb' : b = pre.reverse := by simpa using hb
  have hr1 : (if 0 < r.usage_count then { r with usage_count := r.usage_count - 1 } else r)
      = { r with usage_count := 0 } := by
    rcases Nat.eq_zero_or_pos r.usage_count with h0 | hpos
    · cases r; simp_all
    · have hz : r.usage_count - 1 = 0 := by omega
      simp [hpos, hz]
  have hmemb : ∀ y ∈ b, ¬(y.rid = rid) := by
    intro y hy; exact hpre y (by simpa [hb'] using hy)
  simp only [reclaim, hsplit, hr1]
  simp [release_block_region, free_block_region, can_coalesce, is_available, hh]
  set r3 : BlockRegion :=
    { rid := r.rid, handle := none, offset := 0, size := 0, properties := r.properties,
      dedicated := r.dedicated, is_owner := r.is_owner,
      status := AllocationStatus.Available, usage_count := 0 } with hr3def
  have hlog := coalesce_core_log (st.deallocLog ++ [(r.offset, r.size)]) b.head? r3 a rfl
  have hcent := coalesce_core_center (st.deallocLog ++ [(r.offset, r.size)]) b.head? r3 a rfl
  have hrest := coalesce_core_mem_rest (st.deallocLog ++ [(r.offset, r.size)]) b.head? r3 a
  by_cases hcc : availOpt b.head? = true ∨ availOpt a.head? = true
  · rw [if_pos hcc]
    dsimp only
    constructor
    · obtain ⟨t, ht⟩ := hlog
      exact ⟨t, by simp [ht]⟩
    · intro r' hmem hr'
      rcases List.mem_append.mp hmem with hm | hm
      · have hrb : r' ∈ b := by
          by_cases hpc : (coalesce_core (st.deallocLog ++ [(r.offset, r.size)]) b.head? r3 a).2.1 = true
          · rw [if_pos hpc] at hm
            exact List.mem_of_mem_tail (List.mem_reverse.mp hm)
          · rw [if_neg hpc] at hm
            exact List.mem_reverse.mp hm
        exact absurd hr' (hmemb r' hrb)
      · rcases List.mem_cons.mp hm with hm2 | hm2
        · rcases hcent with ⟨p, hp, _, hpid⟩ | ⟨_, hid, hhd, hoff⟩
          · have hpb : p ∈ b := by
              rcases b with _ | ⟨x, xs⟩
              · simp at hp
              · simp at hp; simp [hp]
            rw [hm2] at hr'
            rw [hpid] at hr'
            exact absurd hr' (hmemb p hpb)
          · subst hm2
            exact ⟨hhd, hoff⟩
        · exact absurd hr' (ha r' (hrest r' hm2))
  · rw [if_neg hcc]
    dsimp only
    refine ⟨⟨[], by simp⟩, ?_⟩
    intro r' hmem hr'
    rcases List.mem_append.mp hmem with hm | hm
    · exact absurd hr' (hmemb r' (List.mem_reverse.mp hm))
    · rcases List.mem_cons.mp hm with hm2 | hm2
      · subst hm2; exact ⟨rfl, rfl⟩
      · exact absurd hr' (ha r' hm2)

/-- A single `InUse` region with usage count 1 and an attached handle, used
to instantiate theorems about `reclaim` freeing backend memory. -/
def regOneInUse : BlockRegion :=
  { rid := 0, handle := some 7, offset := 0, size := 4,
    properties := defaultProps, dedicated := false, is_owner := true,
    status := AllocationStatus.InUse, usage_count := 1 }

/-- A 16-byte block state holding only `regOneInUse`. -/
def stOneInUse : AllocState :=
  { blockSize := 16, blockAlign := 1, reserved := 4,
    regions := [regOneInUse], nextId := 1, deallocLog := [] }

/-- Witness for `c9_amended` at the concrete state `stOneInUse`. -/
theorem c9_amended_witness :
    (split_go 0 [] stOneInUse.regions = some ([], regOneInUse, [])
      ∧ regOneInUse.usage_count ≤ 1 ∧ regOneInUse.handle = some 7
      ∧ ∀ y ∈ ([] : List BlockRegion), ¬(y.rid = 0))
    ∧ ((∃ rest, (reclaim stOneInUse 0).deallocLog
          = stOneInUse.deallocLog ++ (regOneInUse.offset, regOneInUse.size) :: rest)
        ∧ ∀ r' ∈ (reclaim stOneInUse 0).regions, r'.rid = 0 →
            r'.handle = none ∧ r'.offset = 0) :=
  ⟨⟨by decide, by decide, by decide, by simp⟩,
   c9_amended stOneInUse 0 7 [] regOneInUse [] (by decide) (by decide) (by decide) (by simp)⟩

theorem replace_first_some {p : BlockRegion → Bool}
    {f : List (Nat × Nat) → BlockRegion → List BlockRegion × BlockRegion × List (Nat × Nat)}
    {log : List (Nat × Nat)} :
    ∀ {l l' : List BlockRegion} {sel : BlockRegion} {log' : List (Nat × Nat)},
      replace_first p f log l = some (l', sel, log') →
      ∃ pre r post, l = pre ++ r :: post ∧ (∀ y ∈ pre, p y = false) ∧ p r = true
        ∧ l' = pre ++ (f log r).1 ++ post ∧ sel = (f log r).2.1 ∧ log' = (f log r).2.2 := by
  intro l
  induction l with
  | nil => intro l' sel log' h; simp [replace_first] at h
  | cons x xs ih =>
    intro l' sel log' h
    by_cases hx : p x = true
    · simp only [replace_first, hx, if_true, Option.some.injEq, Prod.mk.injEq] at h
      obtain ⟨h1, h2, h3⟩ := h
      exact ⟨[], x, xs, by simp, by simp, hx, by simp [← h1], h2.symm, h3.symm⟩
    · have hx' : p x = false := by simpa using hx
      simp only [replace_first, hx', Bool.false_eq_true, if_false] at h
      rcases hrec : replace_first p f log xs with _ | ⟨l2, sel2, log2⟩
      · rw [hrec] at h; simp at h
      · rw [hrec] at h
        simp only [Option.some.injEq, Prod.mk.injEq] at h
        obtain ⟨pre, r, post, hl, hpre, hr, hl2, hsel, hlog⟩ := ih hrec
        obtain ⟨he1, he2, he3⟩ := h
        refine ⟨x :: pre, r, post, by simp [hl], ?_, hr, ?_, ?_, ?_⟩
        · intro y hy
          rcases List.mem_cons.mp hy with h1 | h1
          · simpa [h1] using hx'
          · exact hpre y h1
        · simp [← he1, hl2]
        · simp [← he2, hsel]
        · simp [← he3, hlog]

theorem place_region_sel (blockAlign : Nat) (req : MemoryRequest) (allocRes : Option Nat)
    (freshId : Nat) (log : List (Nat × Nat)) (r : BlockRegion) :
    (place_region blockAlign req allocRes freshId log r).2.1.rid = r.rid
      ∧ (place_region blockAlign req allocRes freshId log r).2.1.properties = r.properties
      ∧ ((place_region blockAlign req allocRes freshId log r).2.1.size = req.size
          ∨ (place_region blockAlign req allocRes freshId log r).2.1.size = r.size)
      ∧ (place_region blockAlign req allocRes freshId log r).2.1.status
          = (if r.dedicated then AllocationStatus.Dedicated else AllocationStatus.InUse)
      ∧ (place_region blockAlign req allocRes freshId log r).2.1.usage_count = 1
      ∧ ((place_region blockAlign req allocRes freshId log r).1
            = [(place_region blockAlign req allocRes freshId log r).2.1]
          ∨ ∃ e, (place_region blockAlign req allocRes freshId log r).1
                = [(place_region blockAlign req allocRes freshId log r).2.1, e]
              ∧ e.status = AllocationStatus.Available ∧ e.usage_count = 0) := by
  simp only [place_region, alloc_block_region]
  split_ifs <;> simp_all

theorem compat_of_props_eq {r' r : BlockRegion} (h : r'.properties = r.properties)
    (p : MemoryProperties) :
    is_compatible_block_region r' p = is_compatible_block_region r p := by
  simp [is_compatible_block_region, h]

/-- Decompose a successful `reserve`: the fail-fast check passed, the region
list splits at the first region accepted by `region_fits`, and the returned
state is assembled from `place_region` at that region. -/
theorem reserve_some (st : AllocState) (req : MemoryRequest) (al : Option Nat)
    (rid : Nat) (st' : AllocState)
    (hres : reserve st req al = (some rid, st')) :
    req.size ≤ st.blockSize - st.reserved
      ∧ ∃ pre r post,
          st.regions = pre ++ r :: post
          ∧ (∀ y ∈ pre, region_fits st req y = false)
          ∧ region_fits st req r = true
          ∧ st'.regions = pre
              ++ (place_region st.blockAlign req al st.nextId st.deallocLog r).1 ++ post
          ∧ rid = (place_region st.blockAlign req al st.nextId st.deallocLog r).2.1.rid
          ∧ st'.reserved = st.reserved
              + (place_region st.blockAlign req al st.nextId st.deallocLog r).2.1.size := by
  by_cases hc : st.blockSize - st.reserved < req.size
  · rw [reserve, if_pos hc] at hres
    simp at hres
  · constructor
    · omega
    · rw [reserve, if_neg hc] at hres
      rcases hrf : replace_first (region_fits st req)
          (fun log r => place_region st.blockAlign req al st.nextId log r)
          st.deallocLog st.regions with _ | ⟨l', sel, log'⟩
      · rw [hrf] at hres; simp at hres
      · rw [hrf] at hres
        simp only [Prod.mk.injEq, Option.some.injEq] at hres
        obtain ⟨pre, r, post, hl, hpre, hr, hl2, hsel, _⟩ := replace_first_some hrf
        refine ⟨pre, r, post, hl, hpre, hr, ?_, ?_, ?_⟩
        · rw [← hres.2]; simpa using hl2
        · rw [← hres.1, hsel]
        · rw [← hres.2, ← hsel]

/-- C3 (amended): every region returned by a successful `reserve(req)` has
size at least `req.size` and properties compatible with `req.properties`
(the offset-alignment postcondition fails, see the counterexample). -/
theorem c3_amended (st : AllocState) (req : MemoryRequest) (al : Option Nat)
    (rid : Nat) (st' : AllocState)
    (hres : reserve st req al = (some rid, st')) :
    ∃ r', r' ∈ st'.regions ∧ r'.rid = rid ∧ req.size ≤ r'.size
      ∧ is_compatible_block_region r' req.properties = true := by
  obtain ⟨-, pre, r, post, hl, hpre, hr, hregs, hrid, -⟩ := reserve_some st req al rid st' hres
  obtain ⟨hid, hprops, hsize, -, -, hshape⟩ :=
    place_region_sel st.blockAlign req al st.nextId st.deallocLog r
  have hfit := hr
  simp only [region_fits, Bool.and_eq_true, Nat.ble_eq] at hfit
  refine ⟨(place_region st.blockAlign req al st.nextId st.deallocLog r).2.1, ?_, hrid.symm, ?_, ?_⟩
  · rw [hregs]
    rcases hshape with hs | ⟨e, hs, -, -⟩ <;>
      · rw [hs]; simp
  · rcases hsize with hs | hs
    · omega
    · rw [hs]; exact hfit.1.2
  · rw [compat_of_props_eq hprops]
    exact hfit.1.1.2

/-- Region `[0, 4)` of `stAfterR4`: freshly reserved, `InUse`, usage 1. -/
def regAfterA : BlockRegion :=
  { rid := 0, handle := some 1, offset := 0, size := 4,
    properties := defaultProps, dedicated := false, is_owner := true,
    status := AllocationStatus.InUse, usage_count := 1 }

/-- Region `[4, 16)` of `stAfterR4`: the trailing empty region. -/
def regAfterB : BlockRegion :=
  { rid := 1, handle := none, offset := 4, size := 12,
    properties := defaultProps, dedicated := false, is_owner := false,
    status := AllocationStatus.Available, usage_count := 0 }

/-- The state after `reserve` of 4 bytes (alignment 1, handle 1) on a fresh
16-byte block: region `[0, 4)` is `InUse` and `[4, 16)` is `Available`. -/
def stAfterR4 : AllocState :=
  { blockSize := 16, blockAlign := 1, reserved := 4,
    regions := [regAfterA, regAfterB], nextId := 2, deallocLog := [] }

/-- Witness for `c3_amended` at a concrete successful `reserve`. -/
theorem c3_amended_witness :
    reserve (mkBlock 16 1) reqSize4 (some 1) = (some 0, stAfterR4)
      ∧ ∃ r', r' ∈ stAfterR4.regions ∧ r'.rid = 0 ∧ reqSize4.size ≤ r'.size
          ∧ is_compatible_block_region r' reqSize4.properties = true :=
  ⟨by decide, c3_amended (mkBlock 16 1) reqSize4 (some 1) 0 stAfterR4 (by decide)⟩

/-- C8: a successful `reserve(request)` implies the fail-fast check
`block.size - block.reserved < request.size` did not fire, and the region
the request is placed in (the returned `rid`) is the first region in list
order that is available (status `Available`, usage count 0), compatible with
the requested properties, at least `request.size` large, and whose
alignment-adjusted size fits the region and, added to `block.reserved`, the
block; every earlier region fails this acceptance test (`region_fits`). -/
theorem c8_first_fit (st : AllocState) (req : MemoryRequest) (al : Option Nat)
    (rid : Nat) (st' : AllocState)
    (hres : reserve st req al = (some rid, st')) :
    req.size ≤ st.blockSize - st.reserved
      ∧ ∃ i r, st.regions.get? i = some r ∧ r.rid = rid
          ∧ is_available r = true
          ∧ is_compatible_block_region r req.properties = true
          ∧ req.size ≤ r.size
          ∧ aligned_size r.offset req.size (conform_alignment req.alignment st.blockAlign)
              ≤ r.size
          ∧ aligned_size r.offset req.size (conform_alignment req.alignment st.blockAlign)
              + st.reserved ≤ st.blockSize
          ∧ ∀ j, j < i → ∀ y, st.regions.get? j = some y → region_fits st req y = false := by
  obtain ⟨hff, pre, r, post, hl, hpre, hr, -, hrid, -⟩ := reserve_some st req al rid st' hres
  obtain ⟨hid, -, -, -, -, -⟩ :=
    place_region_sel st.blockAlign req al st.nextId st.deallocLog r
  have hfit := hr
  simp only [region_fits, Bool.and_eq_true, Nat.ble_eq] at hfit
  refine ⟨hff, pre.length, r, ?_, by rw [hrid, hid], hfit.1.1.1, hfit.1.1.2,
    hfit.1.2, hfit.2.1, hfit.2.2, ?_⟩
  · rw [hl, List.get?_append_right (le_refl pre.length)]
    simp
  · intro j hj y hy
    rw [hl, List.get?_append hj] at hy
    exact hpre y (List.get?_mem hy)

/-- Witness for `c8_first_fit` at a concrete successful `reserve`. -/
theorem c8_first_fit_witness :
    reserve (mkBlock 16 1) reqSize4 (some 1) = (some 0, stAfterR4)
      ∧ (reqSize4.size ≤ (mkBlock 16 1).blockSize - (mkBlock 16 1).reserved
          ∧ ∃ i r, (mkBlock 16 1).regions.get? i = some r ∧ r.rid = 0
              ∧ is_available r = true
              ∧ is_compatible_block_region r reqSize4.properties = true
              ∧ reqSize4.size ≤ r.size
              ∧ aligned_size r.offset reqSize4.size
                  (conform_alignment reqSize4.alignment (mkBlock 16 1).blockAlign) ≤ r.size
              ∧ aligned_size r.offset reqSize4.size
                  (conform_alignment reqSize4.alignment (mkBlock 16 1).blockAlign)
                  + (mkBlock 16 1).reserved ≤ (mkBlock 16 1).blockSize
              ∧ ∀ j, j < i → ∀ y, (mkBlock 16 1).regions.get? j = some y →
                  region_fits (mkBlock 16 1) reqSize4 y = false) :=
  ⟨by decide, c8_first_fit (mkBlock 16 1) reqSize4 (some 1) 0 stAfterR4 (by decide)⟩

theorem inUseSum_cons (r : BlockRegion) (l : List BlockRegion) :
    inUseSum (r :: l) = contribution r + inUseSum l := by
  simp [inUseSum]

theorem inUseSum_append (l1 l2 : List BlockRegion) :
    inUseSum (l1 ++ l2) = inUseSum l1 + inUseSum l2 := by
  simp [inUseSum]

theorem inUseSum_reverse (l : List BlockRegion) : inUseSum l.reverse = inUseSum l := by
  simp [inUseSum, List.sum_reverse]

/-- Every per-region field except the status, as a tuple. -/
def regionData (r : BlockRegion) : Nat × Nat × Nat × Option Nat × Nat :=
  (r.rid, r.offset, r.size, r.handle, r.usage_count)

theorem release_all_go_spec :
    ∀ (l : List BlockRegion) (c res : Nat), noPurge l = true → res = c + inUseSum l →
      (release_all_go res l).1 = c + inUseSum (release_all_go res l).2
        ∧ (∀ r' ∈ (release_all_go res l).2, r'.usage_count = 0 →
            r'.status = AllocationStatus.Available)
        ∧ (release_all_go res l).2.map regionData = l.map regionData := by
  intro l
  induction l with
  | nil => intro c res _ hres; simpa [release_all_go, inUseSum] using hres
  | cons r rs ih =>
    intro c res hnp hres
    have hnp1 : ¬(r.status = AllocationStatus.Purgeable) := by
      simp [noPurge] at hnp; simpa using hnp.1
    have hnp2 : noPurge rs = true := by
      simp [noPurge] at hnp ⊢; exact hnp.2
    rw [inUseSum_cons] at hres
    by_cases hu : 0 < r.usage_count
    · have hgo : release_all_go res (r :: rs)
          = ((release_all_go res rs).1, r :: (release_all_go res rs).2) := by
        simp [release_all_go, release_block_region, hu]
      obtain ⟨ha1, ha2, ha3⟩ := ih (c + contribution r) res hnp2 (by omega)
      rw [hgo]
      refine ⟨?_, ?_, ?_⟩
      · rw [inUseSum_cons]; omega
      · intro r' hr' h0
        rcases List.mem_cons.mp hr' with h | h
        · subst h; omega
        · exact ha2 r' h h0
      · simp [regionData, ha3]
    · have hu0 : r.usage_count = 0 := by omega
      by_cases hav : r.status = AllocationStatus.Available
      · have hgo : release_all_go res (r :: rs)
            = ((release_all_go res rs).1,
               ({ r with status := AllocationStatus.Available } : BlockRegion)
                 :: (release_all_go res rs).2) := by
          simp [release_all_go, release_block_region, hu, hav]
        have hcr : contribution r = 0 := by simp [contribution, statusReserves, hav]
        obtain ⟨ha1, ha2, ha3⟩ := ih c res hnp2 (by omega)
        rw [hgo]
        refine ⟨?_, ?_, ?_⟩
        · rw [inUseSum_cons]
          have : contribution ({ r with status := AllocationStatus.Available } : BlockRegion)
              = 0 := by simp [contribution, statusReserves]
          omega
        · intro r' hr' h0
          rcases List.mem_cons.mp hr' with h | h
          · subst h; rfl
          · exact ha2 r' h h0
        · simp [regionData, ha3]
      · have hcr : contribution r = r.size := by
          cases hst : r.status <;> simp_all [contribution, statusReserves]
        have hgo : release_all_go res (r :: rs)
            = ((release_all_go (res - r.size) rs).1,
               ({ r with status := AllocationStatus.Available } : BlockRegion)
                 :: (release_all_go (res - r.size) rs).2) := by
          have : (r.status == AllocationStatus.Available) = false := by
            simpa using hav
          simp [release_all_go, release_block_region, hu, this]
        obtain ⟨ha1, ha2, ha3⟩ := ih c (res - r.size) hnp2 (by omega)
        rw [hgo]
        refine ⟨?_, ?_, ?_⟩
        · rw [inUseSum_cons]
          have : contribution ({ r with status := AllocationStatus.Available } : BlockRegion)
              = 0 := by simp [contribution, statusReserves]
          omega
        · intro r' hr' h0
          rcases List.mem_cons.mp hr' with h | h
          · subst h; rfl
          · exact ha2 r' h h0
        · simp [regionData, ha3]

/-- C7 (amended): after the no-argument `release` (release all), every
region whose usage count is 0 is `Available`; no per-region field other than
the status changes (in particular no backend handle is freed, and the
dealloc log is untouched); and, under the block accounting invariant,
`block.reserved` ends equal to the sum of the sizes of the regions still
`InUse`/`Dedicated` — regions with a positive usage count are left in use,
so `reserved` does not in general drop to 0. -/
theorem c7_amended (st : AllocState)
    (h1 : st.reserved = inUseSum st.regions) (h2 : noPurge st.regions = true) :
    (∀ r' ∈ (release_all st).regions, r'.usage_count = 0 →
        r'.status = AllocationStatus.Available)
      ∧ (release_all st).regions.map regionData = st.regions.map regionData
      ∧ (release_all st).deallocLog = st.deallocLog
      ∧ (release_all st).reserved = inUseSum (release_all st).regions := by
  obtain ⟨ha1, ha2, ha3⟩ := release_all_go_spec st.regions 0 st.reserved h2 (by omega)
  exact ⟨fun r' hr' h0 => ha2 r' hr' h0, ha3, rfl, by simpa using ha1⟩

/-- Witness for `c7_amended` at the concrete state `stAfterR4`. -/
theorem c7_amended_witness :
    (stAfterR4.reserved = inUseSum stAfterR4.regions ∧ noPurge stAfterR4.regions = true)
      ∧ ((∀ r' ∈ (release_all stAfterR4).regions, r'.usage_count = 0 →
            r'.status = AllocationStatus.Available)
          ∧ (release_all stAfterR4).regions.map regionData = stAfterR4.regions.map regionData
          ∧ (release_all stAfterR4).deallocLog = stAfterR4.deallocLog
          ∧ (release_all stAfterR4).reserved = inUseSum (release_all stAfterR4).regions) :=
  ⟨⟨by decide, by decide⟩, c7_amended stAfterR4 (by decide) (by decide)⟩

/-! ## Retain/release interleavings on one region -/

/-- Run an interleaving of `retain` (`true`) and `release` (`false`) calls
on the region with identity `rid`. -/
def runRR (st : AllocState) (rid : Nat) : List Bool → AllocState
  | [] => st
  | b :: ops => runRR (if b then retain st rid else release st rid) rid ops

/-- The effect of one `release` call on the targeted region's node
(decrement when positive, then `release_block_region`). -/
def rel_region (r : BlockRegion) : BlockRegion :=
  if 2 ≤ r.usage_count then { r with usage_count := r.usage_count - 1 }
  else { r with usage_count := 0, status := AllocationStatus.Available }

/-- The effect of one `release` call on `block->reserved`. -/
def rel_res (res : Nat) (r : BlockRegion) : Nat :=
  if 2 ≤ r.usage_count then res
  else if r.status == AllocationStatus.Available then res else res - r.size

/-- The targeted region's node after an interleaving of retains (`true`)
and releases (`false`). -/
def rrTrace (r : BlockRegion) : List Bool → BlockRegion
  | [] => r
  | true :: t => rrTrace { r with usage_count := r.usage_count + 1 } t
  | false :: t => rrTrace (rel_region r) t

/-- The running usage count `u` stays positive after every retain (`true`)
or release (`false`) step of the interleaving. -/
def countsStayPos (u : Nat) : List Bool → Bool
  | [] => true
  | true :: t => countsStayPos (u + 1) t
  | false :: t => decide (2 ≤ u) && countsStayPos (u - 1) t

theorem release_split (st : AllocState) (rid : Nat) (b : List BlockRegion)
    (r : BlockRegion) (a : List BlockRegion)
    (hsplit : split_go rid [] st.regions = some (b, r, a)) :
    release st rid
      = { st with reserved := rel_res st.reserved r,
                  regions := b.reverse ++ rel_region r :: a } := by
  rcases Nat.lt_or_ge r.usage_count 2 with hlt | hge
  · rcases Nat.lt_or_ge r.usage_count 1 with h0 | h1
    · have hu0 : r.usage_count = 0 := by omega
      have : ¬(2 ≤ r.usage_count) := by omega
      simp [release, hsplit, release_block_region, rel_region, rel_res, hu0, this]
    · have hu1 : r.usage_count = 1 := by omega
      have h2 : ¬(2 ≤ r.usage_count) := by omega
      simp [release, hsplit, release_block_region, rel_region, rel_res, hu1, h2]
  · have h1 : 0 < r.usage_count := by omega
    have h2 : 0 < r.usage_count - 1 := by omega
    simp [release, hsplit, release_block_region, rel_region, rel_res, h1, h2, hge]

theorem retain_keeps_split (st : AllocState) (rid : Nat) (b : List BlockRegion)
    (r : BlockRegion) (a : List BlockRegion)
    (hsplit : split_go rid [] st.regions = some (b, r, a)) :
    split_go rid [] (retain st rid).regions
      = some (b, { r with usage_count := r.usage_count + 1 }, a) := by
  obtain ⟨pre, hl, hb, hrid, hpre⟩ := split_go_some hsplit
  have hb' : b = pre.reverse := by simpa using hb
  simp only [retain, hsplit]
  rw [hb', List.reverse_reverse]
  simpa [hb'] using
    split_go_reconstruct rid pre [] { r with usage_count := r.usage_count + 1 } a
      (by simpa using hrid) hpre

theorem release_keeps_split (st : AllocState) (rid : Nat) (b : List BlockRegion)
    (r : BlockRegion) (a : List BlockRegion)
    (hsplit : split_go rid [] st.regions = some (b, r, a)) :
    split_go rid [] (release st rid).regions = some (b, rel_region r, a) := by
  obtain ⟨pre, hl, hb, hrid, hpre⟩ := split_go_some hsplit
  have hb' : b = pre.reverse := by simpa using hb
  rw [release_split st rid b r a hsplit]
  have hrid' : (rel_region r).rid = rid := by
    simp only [rel_region]; split_ifs <;> simpa using hrid
  rw [hb', List.reverse_reverse]
  simpa [hb'] using
    split_go_reconstruct rid pre [] (rel_region r) a hrid' hpre

theorem runRR_split (rid : Nat) :
    ∀ (ops : List Bool) (st : AllocState) (b : List BlockRegion) (r : BlockRegion)
      (a : List BlockRegion), split_go rid [] st.regions = some (b, r, a) →
      split_go rid [] (runRR st rid ops).regions = some (b, rrTrace r ops, a) := by
  intro ops
  induction ops with
  | nil => intro st b r a hsplit; exact hsplit
  | cons bop t ih =>
    intro st b r a hsplit
    cases bop
    · exact ih (release st rid) b (rel_region r) a (release_keeps_split st rid b r a hsplit)
    · exact ih (retain st rid) b { r with usage_count := r.usage_count + 1 } a
        (retain_keeps_split st rid b r a hsplit)

theorem rrTrace_handle (ops : List Bool) :
    ∀ r : BlockRegion, (rrTrace r ops).handle = r.handle := by
  induction ops with
  | nil => intro r; rfl
  | cons bop t ih =>
    intro r
    cases bop
    · rw [rrTrace, ih]
      simp only [rel_region]; split_ifs <;> rfl
    · rw [rrTrace, ih]

theorem rrTrace_stays_avail (ops : List Bool) :
    ∀ r : BlockRegion, r.status = AllocationStatus.Available →
      (rrTrace r ops).status = AllocationStatus.Available := by
  induction ops with
  | nil => intro r h; exact h
  | cons bop t ih =>
    intro r h
    cases bop
    · rw [rrTrace]
      refine ih _ ?_
      simp only [rel_region]; split_ifs <;> simpa using h
    · rw [rrTrace]
      exact ih _ (by simpa using h)

theorem rrTrace_inuse (ops : List Bool) :
    ∀ r : BlockRegion, r.status = AllocationStatus.InUse → 1 ≤ r.usage_count →
      ((rrTrace r ops).status = AllocationStatus.InUse
          ↔ countsStayPos r.usage_count ops = true)
        ∧ (countsStayPos r.usage_count ops = true →
            (rrTrace r ops).usage_count
              = r.usage_count + ops.count true - ops.count false) := by
  induction ops with
  | nil =>
    intro r hs hu
    refine ⟨by simp [rrTrace, countsStayPos, hs], ?_⟩
    intro _
    simp [rrTrace]
  | cons bop t ih =>
    intro r hs hu
    cases bop
    · by_cases h2 : 2 ≤ r.usage_count
      · have hr' : (rel_region r) = { r with usage_count := r.usage_count - 1 } := by
          simp [rel_region, h2]
        obtain ⟨ih1, ih2⟩ := ih { r with usage_count := r.usage_count - 1 }
          (by simpa using hs) (by simp; omega)
        rw [rrTrace, hr']
        constructor
        · rw [ih1]
          simp [countsStayPos, h2]
        · intro hpos
          simp only [countsStayPos, Bool.and_eq_true, decide_eq_true_eq] at hpos
          have := ih2 (by simpa using hpos.2)
          simp only [List.count_cons] at this ⊢
          simp only [this]
          simp
          omega
      · have h1 : r.usage_count = 1 := by omega
        have hr' : (rel_region r) = ({ r with usage_count := 0, status := AllocationStatus.Available } : BlockRegion) := by
          simp [rel_region, h2]
        rw [rrTrace, hr']
        have habs := rrTrace_stays_avail t
          { r with usage_count := 0, status := AllocationStatus.Available } (by simp)
        constructor
        · rw [habs]
          simp [countsStayPos, h2]
        · intro hpos
          simp [countsStayPos, h2] at hpos
    · obtain ⟨ih1, ih2⟩ := ih { r with usage_count := r.usage_count + 1 }
        (by simpa using hs) (by simp)
      rw [rrTrace]
      constructor
      · rw [ih1]; rfl
      · intro hpos
        have hpos' : countsStayPos (r.usage_count + 1) t = true := hpos
        have := ih2 hpos'
        simp only [List.count_cons] at this ⊢
        simp only [this]
        simp
        omega

/-- C5 (amended): (a) for a region reserved once (`usage_count = 1`,
status `InUse`), after any interleaving of retains and releases the region
is still `InUse` iff the running usage count stayed positive after every
step of the interleaving (once it reaches 0 the status flips to `Available`
and later retains raise only the count, never the status); when the count
stays positive, the final count is `1 + N - M`; the handle is never touched.
(b) a single `release` decrements the usage count only when it is positive;
when the count reaches 0 it sets the status to `Available` and subtracts the
region's size from `block.reserved` (unless the status already was
`Available`), leaving the backend handle attached. -/
theorem c5_amended (st : AllocState) (rid : Nat) (b : List BlockRegion)
    (r : BlockRegion) (a : List BlockRegion) (ops : List Bool)
    (hsplit : split_go rid [] st.regions = some (b, r, a))
    (hu : r.usage_count = 1) (hs : r.status = AllocationStatus.InUse) :
    (∃ r', split_go rid [] (runRR st rid ops).regions = some (b, r', a)
        ∧ r'.handle = r.handle
        ∧ ((r'.status = AllocationStatus.InUse) ↔ countsStayPos 1 ops = true)
        ∧ (countsStayPos 1 ops = true →
            r'.usage_count = 1 + ops.count true - ops.count false))
      ∧ (∀ (st2 : AllocState) (b2 : List BlockRegion) (r2 : BlockRegion)
          (a2 : List BlockRegion), split_go rid [] st2.regions = some (b2, r2, a2) →
          ∃ r3, split_go rid [] (release st2 rid).regions = some (b2, r3, a2)
            ∧ r3.handle = r2.handle
            ∧ (2 ≤ r2.usage_count → r3.usage_count = r2.usage_count - 1
                ∧ r3.status = r2.status ∧ (release st2 rid).reserved = st2.reserved)
            ∧ (r2.usage_count ≤ 1 → r3.usage_count = 0
                ∧ r3.status = AllocationStatus.Available
                ∧ (¬(r2.status = AllocationStatus.Available) →
                    (release st2 rid).reserved = st2.reserved - r2.size)
                ∧ (r2.status = AllocationStatus.Available →
                    (release st2 rid).reserved = st2.reserved))) := by
  constructor
  · obtain ⟨hiff, hcount⟩ := rrTrace_inuse ops r hs (by omega)
    refine ⟨rrTrace r ops, runRR_split rid ops st b r a hsplit, rrTrace_handle ops r,
      ?_, ?_⟩
    · rw [hiff, hu]
    · intro hpos
      rw [hu] at hcount
      simpa [hu] using hcount hpos
  · intro st2 b2 r2 a2 hsplit2
    refine ⟨rel_region r2, release_keeps_split st2 rid b2 r2 a2 hsplit2, ?_, ?_, ?_⟩
    · simp only [rel_region]; split_ifs <;> rfl
    · intro h2
      rw [release_split st2 rid b2 r2 a2 hsplit2]
      simp [rel_region, rel_res, h2]
    · intro h1
      have h2 : ¬(2 ≤ r2.usage_count) := by omega
      rw [release_split st2 rid b2 r2 a2 hsplit2]
      refine ⟨by simp [rel_region, h2], by simp [rel_region, h2], ?_, ?_⟩
      · intro hna
        have : (r2.status == AllocationStatus.Available) = false := by simpa using hna
        simp [rel_res, h2, this]
      · intro hav
        simp [rel_res, h2, hav]

/-- Witness for `c5_amended` at the concrete state `stAfterR4` with the
interleaving retain-then-release. -/
theorem c5_amended_witness :
    (split_go 0 [] stAfterR4.regions = some ([], regAfterA, [regAfterB])
      ∧ regAfterA.usage_count = 1 ∧ regAfterA.status = AllocationStatus.InUse)
    ∧ ((∃ r', split_go 0 [] (runRR stAfterR4 0 [true, false]).regions
          = some ([], r', [regAfterB])
        ∧ r'.handle = regAfterA.handle
        ∧ ((r'.status = AllocationStatus.InUse) ↔ countsStayPos 1 [true, false] = true)
        ∧ (countsStayPos 1 [true, false] = true →
            r'.usage_count = 1 + [true, false].count true - [true, false].count false))
      ∧ (∀ (st2 : AllocState) (b2 : List BlockRegion) (r2 : BlockRegion)
          (a2 : List BlockRegion), split_go 0 [] st2.regions = some (b2, r2, a2) →
          ∃ r3, split_go 0 [] (release st2 0).regions = some (b2, r3, a2)
            ∧ r3.handle = r2.handle
            ∧ (2 ≤ r2.usage_count → r3.usage_count = r2.usage_count - 1
                ∧ r3.status = r2.status ∧ (release st2 0).reserved = st2.reserved)
            ∧ (r2.usage_count ≤ 1 → r3.usage_count = 0
                ∧ r3.status = AllocationStatus.Available
                ∧ (¬(r2.status = AllocationStatus.Available) →
                    (release st2 0).reserved = st2.reserved - r2.size)
                ∧ (r2.status = AllocationStatus.Available →
                    (release st2 0).reserved = st2.reserved)))) :=
  ⟨⟨by decide, by decide, by decide⟩,
   c5_amended stAfterR4 0 [] regAfterA [regAfterB] [true, false]
     (by decide) (by decide) (by decide)⟩

/-! ## The accounting invariant and its preservation by every operation -/

theorem noPurge_iff (l : List BlockRegion) :
    noPurge l = true ↔ ∀ y ∈ l, ¬(y.status = AllocationStatus.Purgeable) := by
  simp [noPurge]

theorem contribution_avail {c : BlockRegion} (h : c.status = AllocationStatus.Available) :
    contribution c = 0 := by
  simp [contribution, statusReserves, h]

theorem contribution_of_avail {c : BlockRegion} (h : is_available c = true) :
    contribution c = 0 := by
  simp [is_available] at h
  exact contribution_avail h.2

theorem coalesce_core_rest_shape (L : List (Nat × Nat)) (prev : Option BlockRegion)
    (r : BlockRegion) (rest : List BlockRegion) :
    (coalesce_core L prev r rest).2.2.2 = rest
      ∨ ∃ n, rest = n :: (coalesce_core L prev r rest).2.2.2 ∧ is_available n = true := by
  rcases rest with _ | ⟨n, rs⟩
  · left; simp [coalesce_core]
  · by_cases han : is_available n = true
    · right
      refine ⟨n, ?_, han⟩
      simp only [coalesce_core, han]
      split_ifs <;> simp
    · left
      simp only [coalesce_core]
      split_ifs <;> simp_all

theorem coalesce_core_flag (L : List (Nat × Nat)) (prev : Option BlockRegion)
    (r : BlockRegion) (rest : List BlockRegion) :
    (coalesce_core L prev r rest).2.1 = true →
      ∃ p, prev = some p ∧ is_available p = true := by
  rcases prev with _ | p
  · rcases rest with _ | ⟨n, rs⟩ <;>
      · simp only [coalesce_core]; (try split_ifs) <;> simp
  · by_cases hav : is_available p = true
    · exact fun _ => ⟨p, rfl, hav⟩
    · rcases rest with _ | ⟨n, rs⟩ <;>
        · simp only [coalesce_core]; (try split_ifs) <;> simp_all

theorem coalesce_core_center_status (L : List (Nat × Nat)) (prev : Option BlockRegion)
    (r : BlockRegion) (rest : List BlockRegion)
    (hr : r.status = AllocationStatus.Available) :
    (coalesce_core L prev r rest).2.2.1.status = AllocationStatus.Available := by
  rcases prev with _ | p
  · rcases rest with _ | ⟨n, rs⟩ <;>
      · simp only [coalesce_core]; split_ifs <;> simp_all
  · by_cases hav : is_available p = true
    · have hps : p.status = AllocationStatus.Available := by
        simp [is_available] at hav; exact hav.2
      rcases rest with _ | ⟨n, rs⟩ <;>
        · simp only [coalesce_core]; split_ifs <;> simp_all
    · rcases rest with _ | ⟨n, rs⟩ <;>
        · simp only [coalesce_core]; split_ifs <;> simp_all

theorem dec_to_zero {r : BlockRegion} (hu : r.usage_count ≤ 1) :
    (if 0 < r.usage_count then { r with usage_count := r.usage_count - 1 } else r)
      = { r with usage_count := 0 } := by
  rcases Nat.eq_zero_or_pos r.usage_count with h0 | hpos
  · cases r; simp_all
  · have hz : r.usage_count - 1 = 0 := by omega
    simp [hpos, hz]

theorem contribution_reserves {r : BlockRegion}
    (hna : ¬(r.status = AllocationStatus.Available))
    (hnp : ¬(r.status = AllocationStatus.Purgeable)) :
    contribution r = r.size := by
  cases h : r.status <;> simp_all [contribution, statusReserves]

theorem retain_pres (st : AllocState) (rid : Nat)
    (h1 : st.reserved = inUseSum st.regions)
    (h2 : ∀ y ∈ st.regions, ¬(y.status = AllocationStatus.Purgeable)) :
    (retain st rid).reserved = inUseSum (retain st rid).regions
      ∧ ∀ y ∈ (retain st rid).regions, ¬(y.status = AllocationStatus.Purgeable) := by
  rcases hsg : split_go rid [] st.regions with _ | ⟨b, r, a⟩
  · simp only [retain, hsg]
    exact ⟨h1, h2⟩
  · obtain ⟨pre, hl, hb, hrid, hpre⟩ := split_go_some hsg
    have hb' : b = pre.reverse := by simpa using hb
    have hsum : st.reserved = inUseSum pre + contribution r + inUseSum a := by
      rw [h1, hl, inUseSum_append, inUseSum_cons]; omega
    simp only [retain, hsg]
    constructor
    · dsimp only
      rw [hb', List.reverse_reverse, inUseSum_append, inUseSum_cons]
      have hc : contribution ({ r with usage_count := r.usage_count + 1 } : BlockRegion)
          = contribution r := by simp [contribution]
      omega
    · intro y hy
      rw [hb', List.reverse_reverse] at hy
      rcases List.mem_append.mp hy with hm | hm
      · exact h2 y (by rw [hl]; exact List.mem_append_left _ hm)
      · rcases List.mem_cons.mp hm with hm2 | hm2
        · subst hm2
          have : r.status ≠ AllocationStatus.Purgeable :=
            h2 r (by rw [hl]; simp)
          simpa using this
        · exact h2 y (by rw [hl]; simp [hm2])

theorem release_pres (st : AllocState) (rid : Nat)
    (h1 : st.reserved = inUseSum st.regions)
    (h2 : ∀ y ∈ st.regions, ¬(y.status = AllocationStatus.Purgeable)) :
    (release st rid).reserved = inUseSum (release st rid).regions
      ∧ ∀ y ∈ (release st rid).regions, ¬(y.status = AllocationStatus.Purgeable) := by
  rcases hsg : split_go rid [] st.regions with _ | ⟨b, r, a⟩
  · simp only [release, hsg]
    exact ⟨h1, h2⟩
  · obtain ⟨pre, hl, hb, hrid, hpre⟩ := split_go_some hsg
    have hb' : b = pre.reverse := by simpa using hb
    have hrel := release_split st rid b r a hsg
    have hsum : st.reserved = inUseSum pre + contribution r + inUseSum a := by
      rw [h1, hl, inUseSum_append, inUseSum_cons]; omega
    have hrnp : ¬(r.status = AllocationStatus.Purgeable) := h2 r (by rw [hl]; simp)
    rw [hrel]
    constructor
    · dsimp only
      rw [hb', List.reverse_reverse, inUseSum_append, inUseSum_cons]
      by_cases hge : 2 ≤ r.usage_count
      · have hcr : contribution (rel_region r) = contribution r := by
          simp [rel_region, hge, contribution]
        have hres : rel_res st.reserved r = st.reserved := by simp [rel_res, hge]
        omega
      · have hcr : contribution (rel_region r) = 0 := by
          refine contribution_avail ?_
          simp [rel_region, hge]
        by_cases hav : r.status = AllocationStatus.Available
        · have hres : rel_res st.reserved r = st.reserved := by simp [rel_res, hge, hav]
          have hc0 : contribution r = 0 := contribution_avail hav
          omega
        · have hres : rel_res st.reserved r = st.reserved - r.size := by
            have : (r.status == AllocationStatus.Available) = false := by simpa using hav
            simp [rel_res, hge, this]
          have hc : contribution r = r.size := contribution_reserves hav hrnp
          omega
    · intro y hy
      dsimp only at hy
      rw [hb', List.reverse_reverse] at hy
      rcases List.mem_append.mp hy with hm | hm
      · exact h2 y (by rw [hl]; exact List.mem_append_left _ hm)
      · rcases List.mem_cons.mp hm with hm2 | hm2
        · subst hm2
          simp only [rel_region]
          split_ifs <;> simpa using hrnp
        · exact h2 y (by rw [hl]; simp [hm2])

theorem reserve_pres (st : AllocState) (req : MemoryRequest) (al : Option Nat)
    (h1 : st.reserved = inUseSum st.regions)
    (h2 : ∀ y ∈ st.regions, ¬(y.status = AllocationStatus.Purgeable)) :
    (reserve st req al).2.reserved = inUseSum (reserve st req al).2.regions
      ∧ ∀ y ∈ (reserve st req al).2.regions, ¬(y.status = AllocationStatus.Purgeable) := by
  by_cases hc : st.blockSize - st.reserved < req.size
  · rw [reserve, if_pos hc]
    exact ⟨h1, h2⟩
  · rcases hrf : replace_first (region_fits st req)
        (fun log r => place_region st.blockAlign req al st.nextId log r)
        st.deallocLog st.regions with _ | ⟨l', sel, log'⟩
    · rw [reserve, if_neg hc, hrf]
      exact ⟨h1, h2⟩
    · rw [reserve, if_neg hc, hrf]
      obtain ⟨pre, r, post, hl, hpre, hr, hl2, hsel, -⟩ := replace_first_some hrf
      obtain ⟨hid, hprops, hsize, hstat, husage, hshape⟩ :=
        place_region_sel st.blockAlign req al st.nextId st.deallocLog r
      have hfit := hr
      simp only [region_fits, Bool.and_eq_true] at hfit
      have hc0 : contribution r = 0 := contribution_of_avail hfit.1.1.1
      have hcsel : contribution (place_region st.blockAlign req al st.nextId st.deallocLog r).2.1
          = (place_region st.blockAlign req al st.nextId st.deallocLog r).2.1.size := by
        rw [contribution, hstat]
        cases r.dedicated <;> simp [statusReserves]
      have hselnp : ¬((place_region st.blockAlign req al st.nextId st.deallocLog r).2.1.status
          = AllocationStatus.Purgeable) := by
        rw [hstat]; cases r.dedicated <;> simp
      have hsum : st.reserved = inUseSum pre + inUseSum post := by
        rw [h1, hl, inUseSum_append, inUseSum_cons]; omega
      have hsump : inUseSum (place_region st.blockAlign req al st.nextId st.deallocLog r).1
          = (place_region st.blockAlign req al st.nextId st.deallocLog r).2.1.size := by
        rcases hshape with hs | ⟨e, hs, hes, -⟩
        · rw [hs, inUseSum_cons]
          simp [inUseSum, hcsel]
        · rw [hs, inUseSum_cons, inUseSum_cons]
          have : contribution e = 0 := contribution_avail hes
          simp [inUseSum]
          omega
      constructor
      · dsimp only
        rw [hsel, hl2, inUseSum_append, inUseSum_append, hsump]
        omega
      · intro y hy
        dsimp only at hy
        rw [hl2] at hy
        rcases List.mem_append.mp hy with hm | hm
        · rcases List.mem_append.mp hm with hm1 | hm1
          · exact h2 y (by rw [hl]; exact List.mem_append_left _ hm1)
          · rcases hshape with hs | ⟨e, hs, hes, -⟩
            · rw [hs] at hm1
              rcases List.mem_cons.mp hm1 with hm2 | hm2
              · subst hm2; exact hselnp
              · simp at hm2
            · rw [hs] at hm1
              rcases List.mem_cons.mp hm1 with hm2 | hm2
              · subst hm2; exact hselnp
              · rcases List.mem_cons.mp hm2 with hm3 | hm3
                · subst hm3; simp [hes]
                · simp at hm3
        · exact h2 y (by rw [hl]; simp [hm])

theorem reclaim_pres (st : AllocState) (rid : Nat)
    (h1 : st.reserved = inUseSum st.regions)
    (h2 : ∀ y ∈ st.regions, ¬(y.status = AllocationStatus.Purgeable))
    (hgood : ∀ b r a, split_go rid [] st.regions = some (b, r, a) → r.usage_count ≤ 1) :
    (reclaim st rid).reserved = inUseSum (reclaim st rid).regions
      ∧ ∀ y ∈ (reclaim st rid).regions, ¬(y.status = AllocationStatus.Purgeable) := by
  rcases hsg : split_go rid [] st.regions with _ | ⟨b, r, a⟩
  · simp only [reclaim, hsg]; exact ⟨h1, h2⟩
  · have hu := hgood b r a hsg
    obtain ⟨pre, hl, hb, hrid, hpre⟩ := split_go_some hsg
    have hb' : b = pre.reverse := by simpa using hb
    have hrnp : ¬(r.status = AllocationStatus.Purgeable) := h2 r (by rw [hl]; simp)
    have hsum : st.reserved = inUseSum pre + contribution r + inUseSum a := by
      rw [h1, hl, inUseSum_append, inUseSum_cons]; omega
    have hrr : release_block_region st.reserved ({ r with usage_count := 0 } : BlockRegion)
        = ((if r.status == AllocationStatus.Available then st.reserved
            else st.reserved - r.size),
           ({ r with usage_count := 0, status := AllocationStatus.Available } : BlockRegion)) := by
      simp [release_block_region]
    have hres' : (if r.status == AllocationStatus.Available then st.reserved
        else st.reserved - r.size) = inUseSum pre + inUseSum a := by
      by_cases hav : r.status = AllocationStatus.Available
      · have hc0 := contribution_avail hav
        simp only [hav, beq_self_eq_true, if_true]
        omega
      · have hcr := contribution_reserves hav hrnp
        have hbe : (r.status == AllocationStatus.Available) = false := by simpa using hav
        simp only [hbe, Bool.false_eq_true, if_false]
        omega
    have hfrs : (free_block_region st.deallocLog
        ({ r with usage_count := 0, status := AllocationStatus.Available } : BlockRegion)).2.status
        = AllocationStatus.Available := by
      simp [free_block_region]
    have hfrc : contribution (free_block_region st.deallocLog
        ({ r with usage_count := 0, status := AllocationStatus.Available } : BlockRegion)).2 = 0 :=
      contribution_avail hfrs
    simp only [reclaim, hsg, dec_to_zero hu, hrr]
    set fr2 := (free_block_region st.deallocLog
        ({ r with usage_count := 0, status := AllocationStatus.Available } : BlockRegion)).2
      with hfr2def
    set L1 := (free_block_region st.deallocLog
        ({ r with usage_count := 0, status := AllocationStatus.Available } : BlockRegion)).1
      with hL1def
    by_cases hcc : can_coalesce b.head? fr2 a.head? = true
    · rw [if_pos hcc]
      dsimp only
      have hcent : (coalesce_core L1 b.head? fr2 a).2.2.1.status
          = AllocationStatus.Available :=
        coalesce_core_center_status L1 b.head? fr2 a hfrs
      have hcentc : contribution (coalesce_core L1 b.head? fr2 a).2.2.1 = 0 :=
        contribution_avail hcent
      have hrests := coalesce_core_rest_shape L1 b.head? fr2 a
      have hrestmem := coalesce_core_mem_rest L1 b.head? fr2 a
      have hsa : inUseSum (coalesce_core L1 b.head? fr2 a).2.2.2 = inUseSum a := by
        rcases hrests with hs | ⟨n, hs, hna⟩
        · rw [hs]
        · have hx : inUseSum a
              = contribution n + inUseSum (coalesce_core L1 b.head? fr2 a).2.2.2 := by
            conv_lhs => rw [hs]
            rw [inUseSum_cons]
          have hn0 := contribution_of_avail hna
          omega
      have hpref : inUseSum (if (coalesce_core L1 b.head? fr2 a).2.1 = true
          then b.tail else b).reverse = inUseSum pre := by
        by_cases hflag : (coalesce_core L1 b.head? fr2 a).2.1 = true
        · obtain ⟨p, hp, hpav⟩ := coalesce_core_flag L1 b.head? fr2 a hflag
          cases b with
          | nil => simp at hp
          | cons p0 bt =>
            simp only [List.head?_cons, Option.some.injEq] at hp
            have hp0 : contribution p0 = 0 := by
              refine contribution_of_avail ?_
              rw [hp]; exact hpav
            have hpe : inUseSum pre = contribution p0 + inUseSum bt := by
              have hx : inUseSum pre = inUseSum (p0 :: bt) := by
                rw [hb', inUseSum_reverse]
              rw [hx, inUseSum_cons]
            rw [if_pos hflag]
            simp only [List.tail_cons]
            rw [inUseSum_reverse]
            omega
        · rw [if_neg hflag, inUseSum_reverse, hb', inUseSum_reverse]
      constructor
      · rw [hres', inUseSum_append, inUseSum_cons, hpref, hsa]
        omega
      · intro y hy
        rcases List.mem_append.mp hy with hm | hm
        · have hyb : y ∈ b := by
            by_cases hflag : (coalesce_core L1 b.head? fr2 a).2.1 = true
            · rw [if_pos hflag] at hm
              exact List.mem_of_mem_tail (List.mem_reverse.mp hm)
            · rw [if_neg hflag] at hm
              exact List.mem_reverse.mp hm
          have : y ∈ pre := by rwa [hb', List.mem_reverse] at hyb
          exact h2 y (by rw [hl]; exact List.mem_append_left _ this)
        · rcases List.mem_cons.mp hm with hm2 | hm2
          · subst hm2; simp [hcent]
          · exact h2 y (by rw [hl]; simp [hrestmem y hm2])
    · rw [if_neg hcc]
      dsimp only
      constructor
      · rw [hres', hb', List.reverse_reverse, inUseSum_append, inUseSum_cons, hfrc]
        omega
      · intro y hy
        rw [hb', List.reverse_reverse] at hy
        rcases List.mem_append.mp hy with hm | hm
        · exact h2 y (by rw [hl]; exact List.mem_append_left _ hm)
        · rcases List.mem_cons.mp hm with hm2 | hm2
          · subst hm2; simp [hfrs]
          · exact h2 y (by rw [hl]; simp [hm2])

/-- One public operation of the `RegionAllocator`. -/
inductive AllocOp where
  | reserveOp (req : MemoryRequest) (allocRes : Option Nat)
  | releaseOp (rid : Nat)
  | reclaimOp (rid : Nat)
  | retainOp (rid : Nat)
  deriving DecidableEq, Repr

/-- Apply one public operation. -/
def applyOp (st : AllocState) : AllocOp → AllocState
  | AllocOp.reserveOp req al => (reserve st req al).2
  | AllocOp.releaseOp rid => release st rid
  | AllocOp.reclaimOp rid => reclaim st rid
  | AllocOp.retainOp rid => retain st rid

/-- Run a sequence of public operations. -/
def runOps (st : AllocState) : List AllocOp → AllocState
  | [] => st
  | op :: ops => runOps (applyOp st op) ops

/-- The per-operation side condition: a `reclaim` must target a region whose
usage count is at most 1 at the moment the call is made. -/
def goodGuard (st : AllocState) : AllocOp → Bool
  | AllocOp.reclaimOp rid =>
    match split_go rid [] st.regions with
    | some (_, r, _) => decide (r.usage_count ≤ 1)
    | none => true
  | _ => true

/-- Every `reclaim` in the sequence satisfies `goodGuard` at its point of
execution. -/
def goodOps (st : AllocState) : List AllocOp → Bool
  | [] => true
  | op :: ops => goodGuard st op && goodOps (applyOp st op) ops

/-- C2 (amended): starting from a state satisfying the accounting invariant
(`block.reserved` equals the `InUse`/`Dedicated` size total, and no region
is `Purgeable`), any sequence of reserve/release/reclaim/retain operations
preserves the invariant, provided every `reclaim` call targets a region
whose usage count is at most 1 at that point (a `reclaim` on a region with
usage count ≥ 2 breaks it — see the counterexample). -/
theorem c2_amended (st : AllocState) (ops : List AllocOp)
    (h1 : st.reserved = inUseSum st.regions)
    (h2 : noPurge st.regions = true)
    (h3 : goodOps st ops = true) :
    (runOps st ops).reserved = inUseSum (runOps st ops).regions := by
  induction ops generalizing st with
  | nil => exact h1
  | cons op ops ih =>
    simp only [goodOps, Bool.and_eq_true] at h3
    have h2' := (noPurge_iff st.regions).mp h2
    have step : (applyOp st op).reserved = inUseSum (applyOp st op).regions
        ∧ ∀ y ∈ (applyOp st op).regions, ¬(y.status = AllocationStatus.Purgeable) := by
      cases op with
      | reserveOp req al => exact reserve_pres st req al h1 h2'
      | releaseOp rid => exact release_pres st rid h1 h2'
      | retainOp rid => exact retain_pres st rid h1 h2'
      | reclaimOp rid =>
        refine reclaim_pres st rid h1 h2' ?_
        intro b r a hsg
        have hg := h3.1
        rw [goodGuard, hsg] at hg
        simpa using hg
    rw [runOps]
    exact ih (applyOp st op) step.1 ((noPurge_iff _).mpr step.2) h3.2

/-- The operation sequence used to instantiate `c2_amended`: reserve, retain,
release (back to usage 1), then reclaim at usage count 1. -/
def opsC2 : List AllocOp :=
  [AllocOp.reserveOp reqSize4 (some 1), AllocOp.retainOp 0,
   AllocOp.releaseOp 0, AllocOp.reclaimOp 0]

/-- Witness for `c2_amended` on a fresh 16-byte block and `opsC2`. -/
theorem c2_amended_witness :
    ((mkBlock 16 1).reserved = inUseSum (mkBlock 16 1).regions
      ∧ noPurge (mkBlock 16 1).regions = true
      ∧ goodOps (mkBlock 16 1) opsC2 = true)
    ∧ (runOps (mkBlock 16 1) opsC2).reserved = inUseSum (runOps (mkBlock 16 1) opsC2).regions :=
  ⟨⟨by decide, by decide, by decide⟩,
   c2_amended (mkBlock 16 1) opsC2 (by decide) (by decide) (by decide)⟩

/-! ## Collect: coalescing pass over the whole list -/

theorem noAdjAvail_cons (x : BlockRegion) (l : List BlockRegion)
    (h : noAdjAvail l = true)
    (hb : ∀ y, l.head? = some y →
      ¬(is_available x = true ∧ is_available y = true)) :
    noAdjAvail (x :: l) = true := by
  cases l with
  | nil => simp [noAdjAvail]
  | cons y t =>
    have hxy := hb y rfl
    simp only [noAdjAvail, Bool.and_eq_true]
    refine ⟨?_, h⟩
    cases hax : is_available x <;> cases hay : is_available y <;> simp_all

set_option maxHeartbeats 1600000 in
/-- The five facts about one `collect_go` pass, proved together: the output
head preserves the pending node's availability; the output has no two
adjacent available nodes; a false flag means nothing changed; the output
never grows; a true flag means it strictly shrank. -/
theorem collect_go_main (m : Nat) :
    ∀ (rest : List BlockRegion), rest.length ≤ m →
      ∀ (log : List (Nat × Nat)) (cur : Option BlockRegion),
      (∀ c, cur = some c → ∃ c' t, (collect_go m log cur rest).2.1 = c' :: t
          ∧ is_available c' = is_available c)
        ∧ noAdjAvail (collect_go m log cur rest).2.1 = true
        ∧ ((collect_go m log cur rest).2.2 = false →
            (collect_go m log cur rest).2.1 = cur.toList ++ rest)
        ∧ (collect_go m log cur rest).2.1.length ≤ cur.toList.length + rest.length
        ∧ ((collect_go m log cur rest).2.2 = true →
            (collect_go m log cur rest).2.1.length < cur.toList.length + rest.length) := by
  induction m with
  | zero =>
    intro rest hlen log cur
    have : rest = [] := List.length_eq_zero.mp (by omega)
    subst this
    refine ⟨?_, ?_, ?_, ?_, ?_⟩ <;>
      rcases cur with _ | c <;> simp [collect_go, noAdjAvail]
  | succ m ih =>
    intro rest hlen log cur
    rcases rest with _ | ⟨r, rs⟩
    · refine ⟨?_, ?_, ?_, ?_, ?_⟩ <;>
        rcases cur with _ | c <;> simp [collect_go, noAdjAvail]
    · by_cases hcc : can_coalesce cur r rs.head? = true
      · -- coalesce branch
        have havr : is_available r = true := by
          simp [can_coalesce, Bool.and_eq_true] at hcc
          exact hcc.1
        rcases rs with _ | ⟨n, rs'⟩
        · -- rs = []: terminal coalesce; the predecessor must be available
          have hpav : ∃ p, cur = some p ∧ is_available p = true := by
            simp [can_coalesce, availOpt, Bool.and_eq_true, Bool.or_eq_true] at hcc
            rcases cur with _ | p
            · simp [availOpt] at hcc
            · exact ⟨p, rfl, by simpa [availOpt] using hcc.2⟩
          obtain ⟨p, hp, hpavail⟩ := hpav
          subst hp
          have hstep : collect_go (m + 1) log (some p) [r]
              = ((if (r.usage_count == 0 && !(r.handle == none)) = true
                    then log ++ [(r.offset, r.size)] else log),
                 [{ p with size := p.size + (if (r.usage_count == 0 && !(r.handle == none)) = true then ({ r with handle := none } : BlockRegion) else r).size }],
                 true) := by
            simp only [collect_go, hcc, if_true]
            split_ifs <;> simp_all
          rw [hstep]
          refine ⟨?_, by simp [noAdjAvail], by simp, by simp, by simp⟩
          intro c hc
          obtain rfl : p = c := by cases hc; rfl
          exact ⟨_, [], rfl, by simp [is_available]⟩
        · -- rs = n :: rs'
          by_cases han : is_available n = true
          · -- next node is merged; recurse on rs'
            have hlen' : rs'.length ≤ m := by simp at hlen; omega
            -- name the pieces
            rcases cur with _ | p
            · -- no predecessor: pm.1 = false, emitted = []
              have hstep : ∃ L1, collect_go (m + 1) log none (r :: n :: rs')
                  = ((collect_go m L1
                      (some { (if (r.usage_count == 0 && !(r.handle == none)) = true then ({ r with handle := none } : BlockRegion) else r) with
                          size := (if (r.usage_count == 0 && !(r.handle == none)) = true then ({ r with handle := none } : BlockRegion) else r).size + n.size }) rs').1,
                     (collect_go m L1
                      (some { (if (r.usage_count == 0 && !(r.handle == none)) = true then ({ r with handle := none } : BlockRegion) else r) with
                          size := (if (r.usage_count == 0 && !(r.handle == none)) = true then ({ r with handle := none } : BlockRegion) else r).size + n.size }) rs').2.1,
                     true) := by
                refine ⟨(if (!(n.handle == none)) = true
                    then (if (r.usage_count == 0 && !(r.handle == none)) = true
                          then log ++ [(r.offset, r.size)] else log) ++ [(n.offset, n.size)]
                    else (if (r.usage_count == 0 && !(r.handle == none)) = true
                          then log ++ [(r.offset, r.size)] else log)), ?_⟩
                simp only [collect_go, hcc, if_true, han]
                split_ifs <;> simp_all
              obtain ⟨L1, hstep⟩ := hstep
              rw [hstep]
              set m2 : BlockRegion :=
                { (if (r.usage_count == 0 && !(r.handle == none)) = true then ({ r with handle := none } : BlockRegion) else r) with
                    size := (if (r.usage_count == 0 && !(r.handle == none)) = true then ({ r with handle := none } : BlockRegion) else r).size + n.size }
                with hm2
              have hm2av : is_available m2 = is_available r := by
                rw [hm2]; split_ifs <;> simp [is_available]
              obtain ⟨ihH, ihA, ihF, ihLe, ihLt⟩ := ih rs' hlen' L1 (some m2)
              have hLe2 : (collect_go m L1 (some m2) rs').2.1.length ≤ 1 + rs'.length := by
                simpa using ihLe
              refine ⟨by simp, ihA, by simp, ?_, ?_⟩
              · simp
                omega
              · intro _
                simp
                omega
            · -- predecessor present
              by_cases hpavail : is_available p = true
              · -- predecessor merged: emitted = []
                have hstep : ∃ L1, collect_go (m + 1) log (some p) (r :: n :: rs')
                    = ((collect_go m L1 (some { p with size := p.size + (if (r.usage_count == 0 && !(r.handle == none)) = true then ({ r with handle := none } : BlockRegion) else r).size + n.size }) rs').1,
                       (collect_go m L1 (some { p with size := p.size + (if (r.usage_count == 0 && !(r.handle == none)) = true then ({ r with handle := none } : BlockRegion) else r).size + n.size }) rs').2.1,
                       true) := by
                  refine ⟨(if (!(n.handle == none)) = true
                      then (if (r.usage_count == 0 && !(r.handle == none)) = true
                            then log ++ [(r.offset, r.size)] else log) ++ [(n.offset, n.size)]
                      else (if (r.usage_count == 0 && !(r.handle == none)) = true
                            then log ++ [(r.offset, r.size)] else log)), ?_⟩
                  simp only [collect_go, hcc, if_true, han, hpavail]
                  split_ifs <;> simp_all
                obtain ⟨L1, hstep⟩ := hstep
                rw [hstep]
                set m2 : BlockRegion :=
                  { p with size := p.size + (if (r.usage_count == 0 && !(r.handle == none)) = true then ({ r with handle := none } : BlockRegion) else r).size + n.size }
                  with hm2
                have hm2av : is_available m2 = is_available p := by
                  rw [hm2]; simp [is_available]
                obtain ⟨ihH, ihA, ihF, ihLe, ihLt⟩ := ih rs' hlen' L1 (some m2)
                have hLe2 : (collect_go m L1 (some m2) rs').2.1.length ≤ 1 + rs'.length := by
                  simpa using ihLe
                refine ⟨?_, ihA, by simp, ?_, ?_⟩
                · intro c hc
                  obtain rfl : p = c := by cases hc; rfl
                  obtain ⟨c', t, hout, hcav⟩ := ihH m2 rfl
                  exact ⟨c', t, hout, by rw [hcav, hm2av]⟩
                · simp
                  omega
                · intro _
                  simp
                  omega
              · -- predecessor kept: emitted = [p]
                have hstep : ∃ L1, collect_go (m + 1) log (some p) (r :: n :: rs')
                    = ((collect_go m L1 (some { (if (r.usage_count == 0 && !(r.handle == none)) = true then ({ r with handle := none } : BlockRegion) else r) with
                          size := (if (r.usage_count == 0 && !(r.handle == none)) = true then ({ r with handle := none } : BlockRegion) else r).size + n.size }) rs').1,
                       p :: (collect_go m L1 (some { (if (r.usage_count == 0 && !(r.handle == none)) = true then ({ r with handle := none } : BlockRegion) else r) with
                          size := (if (r.usage_count == 0 && !(r.handle == none)) = true then ({ r with handle := none } : BlockRegion) else r).size + n.size }) rs').2.1,
                       true) := by
                  refine ⟨(if (!(n.handle == none)) = true
                      then (if (r.usage_count == 0 && !(r.handle == none)) = true
                            then log ++ [(r.offset, r.size)] else log) ++ [(n.offset, n.size)]
                      else (if (r.usage_count == 0 && !(r.handle == none)) = true
                            then log ++ [(r.offset, r.size)] else log)), ?_⟩
                  simp only [collect_go, hcc, if_true, han, hpavail]
                  split_ifs <;> simp_all
                obtain ⟨L1, hstep⟩ := hstep
                rw [hstep]
                set m2 : BlockRegion :=
                  { (if (r.usage_count == 0 && !(r.handle == none)) = true then ({ r with handle := none } : BlockRegion) else r) with
                      size := (if (r.usage_count == 0 && !(r.handle == none)) = true then ({ r with handle := none } : BlockRegion) else r).size + n.size }
                  with hm2
                have hm2av : is_available m2 = is_available r := by
                  rw [hm2]; split_ifs <;> simp [is_available]
                obtain ⟨ihH, ihA, ihF, ihLe, ihLt⟩ := ih rs' hlen' L1 (some m2)
                have hLe2 : (collect_go m L1 (some m2) rs').2.1.length ≤ 1 + rs'.length := by
                  simpa using ihLe
                obtain ⟨c', t, hout, hcav⟩ := ihH m2 rfl
                refine ⟨?_, ?_, by simp, ?_, ?_⟩
                · intro c hc
                  obtain rfl : p = c := by cases hc; rfl
                  exact ⟨p, _, rfl, rfl⟩
                · refine noAdjAvail_cons p _ ihA ?_
                  intro y hy
                  rw [hout] at hy
                  cases hy
                  intro hcon
                  exact absurd hcon.1 (by simpa using hpavail)
                · simp
                  omega
                · intro _
                  simp
                  omega
          · -- next node kept: recurse on (n :: rs'); predecessor must be available
            have hpav : ∃ p, cur = some p ∧ is_available p = true := by
              simp [can_coalesce, availOpt, Bool.and_eq_true, Bool.or_eq_true] at hcc
              rcases cur with _ | p
              · rcases hcc.2 with h | h
                · simp [availOpt] at h
                · exact absurd (by simpa [availOpt] using h) han
              · rcases hcc.2 with h | h
                · exact ⟨p, rfl, by simpa [availOpt] using h⟩
                · exact absurd (by simpa [availOpt] using h) han
            obtain ⟨p, hp, hpavail⟩ := hpav
            subst hp
            have hlen' : (n :: rs').length ≤ m := by simp at hlen ⊢; omega
            have hstep : collect_go (m + 1) log (some p) (r :: n :: rs')
                = ((collect_go m (if (r.usage_count == 0 && !(r.handle == none)) = true
                      then log ++ [(r.offset, r.size)] else log)
                    (some { p with size := p.size + (if (r.usage_count == 0 && !(r.handle == none)) = true then ({ r with handle := none } : BlockRegion) else r).size }) (n :: rs')).1,
                   (collect_go m (if (r.usage_count == 0 && !(r.handle == none)) = true
                      then log ++ [(r.offset, r.size)] else log)
                    (some { p with size := p.size + (if (r.usage_count == 0 && !(r.handle == none)) = true then ({ r with handle := none } : BlockRegion) else r).size }) (n :: rs')).2.1,
                   true) := by
              simp only [collect_go, hcc, if_true, han, hpavail]
              split_ifs <;> simp_all
            rw [hstep]
            set L1 := (if (r.usage_count == 0 && !(r.handle == none)) = true
                then log ++ [(r.offset, r.size)] else log) with hL1
            set m2 : BlockRegion :=
              { p with size := p.size + (if (r.usage_count == 0 && !(r.handle == none)) = true then ({ r with handle := none } : BlockRegion) else r).size }
              with hm2
            have hm2av : is_available m2 = is_available p := by
              rw [hm2]; simp [is_available]
            obtain ⟨ihH, ihA, ihF, ihLe, ihLt⟩ := ih (n :: rs') hlen' L1 (some m2)
            have hLe2 : (collect_go m L1 (some m2) (n :: rs')).2.1.length ≤ rs'.length + 2 := by
              simp at ihLe; omega
            refine ⟨?_, ihA, by simp, ?_, ?_⟩
            · intro c hc
              obtain rfl : p = c := by cases hc; rfl
              obtain ⟨c', t, hout, hcav⟩ := ihH m2 rfl
              exact ⟨c', t, hout, by rw [hcav, hm2av]⟩
            · simp
              omega
            · intro _
              simp
              omega
      · -- no coalesce at this node
        have hlen' : rs.length ≤ m := by simp at hlen; omega
        have hstep : collect_go (m + 1) log cur (r :: rs)
            = ((collect_go m log (some r) rs).1,
               cur.toList ++ (collect_go m log (some r) rs).2.1,
               (collect_go m log (some r) rs).2.2) := by
          simp only [collect_go, hcc]
          simp
        rw [hstep]
        obtain ⟨ihH, ihA, ihF, ihLe, ihLt⟩ := ih rs hlen' log (some r)
        have hLe2 : (collect_go m log (some r) rs).2.1.length ≤ 1 + rs.length := by
          simpa using ihLe
        obtain ⟨c', t, hout, hcav⟩ := ihH r rfl
        refine ⟨?_, ?_, ?_, ?_, ?_⟩
        · intro c hc
          rcases cur with _ | p
          · simp at hc
          · obtain rfl : p = c := by cases hc; rfl
            exact ⟨p, _, rfl, rfl⟩
        · rcases cur with _ | p
          · simpa using ihA
          · refine noAdjAvail_cons p _ ihA ?_
            intro y hy
            rw [hout] at hy
            cases hy
            intro hcon
            have hr : is_available r = true := by rw [← hcav]; exact hcon.2
            have : can_coalesce (some p) r rs.head? = true := by
              simp [can_coalesce, availOpt, hcon.1, hr]
            exact hcc this
        · intro hf
          rw [ihF hf]
          simp
        · simp only [List.length_append]
          rcases cur with _ | p <;> simp <;> omega
        · intro hf
          have hLt2 : (collect_go m log (some r) rs).2.1.length < 1 + rs.length := by
            simpa using ihLt hf
          simp only [List.length_append]
          rcases cur with _ | p <;> simp <;> omega

/-- C6: after `collect()`, no two adjacent regions in the block's list are
both available (status `Available` with usage count 0, the availability test
the source's coalescing guards use); and `collect()` returns true iff it
performed at least one coalesce, equivalently iff the region list shrank. -/
theorem c6_collect (st : AllocState) :
    noAdjAvail (collect st).1.regions = true
      ∧ ((collect st).2 = true ↔ (collect st).1.regions.length < st.regions.length) := by
  obtain ⟨-, hA, hF, hLe, hLt⟩ :=
    collect_go_main st.regions.length st.regions (le_refl _) st.deallocLog none
  refine ⟨by simpa [collect] using hA, ?_, ?_⟩
  · intro hf
    have := hLt (by simpa [collect] using hf)
    simpa [collect] using this
  · intro hlt
    by_cases hf : (collect_go st.regions.length st.deallocLog none st.regions).2.2 = true
    · simpa [collect] using hf
    · have hf' : (collect_go st.regions.length st.deallocLog none st.regions).2.2 = false := by
        simpa using hf
      have heq := hF hf'
      rw [collect] at hlt
      dsimp only at hlt
      rw [heq] at hlt
      simp at hlt

end HalideRegion
